import Mathlib

/-!
Verification of the HolyDB object-storage core (`pkg/storage/storage_local.go`)
and its SigV4-style authentication middleware (`internal/server/auth.go`)
against the natural-language specification, via a shallow embedding.

Bytes are modelled as `Nat` (each < 256), byte strings as `List Nat`.
Filesystem paths are lists of path components (`List String`), relative to
the storage root.
-/

set_option maxRecDepth 10000

/-! ## Byte and string utilities -/

/-- UTF-8 encoding of a single character code point (mirrors Go's string
byte representation). -/
def utf8Bytes (c : Char) : List Nat :=
  let n := c.toNat
  if n < 128 then [n]
  else if n < 2048 then [192 + n / 64, 128 + n % 64]
  else if n < 65536 then [224 + n / 4096, 128 + (n / 64) % 64, 128 + n % 64]
  else [240 + n / 262144, 128 + (n / 4096) % 64, 128 + (n / 64) % 64, 128 + n % 64]

/-- The UTF-8 bytes of a string, i.e. exactly the bytes Go sees in `[]byte(s)`. -/
def strBytes (s : String) : List Nat :=
  s.data.flatMap utf8Bytes

/-- `strings.HasPrefix` from Go: raw prefix test. Character-wise prefix and
UTF-8 byte-wise prefix coincide, so this is faithful. -/
def hasPfx (s pre : String) : Bool :=
  pre.data.isPrefixOf s.data

/-- `strings.Split` with a single-character separator, at the character
level (written so it reduces in the kernel; `String.splitOn` does not).
Empty input yields one empty field, like Go. -/
def splitCh (sep : Char) : List Char → List (List Char)
  | [] => [[]]
  | c :: cs =>
      let r := splitCh sep cs
      if c = sep then [] :: r
      else
        match r with
        | h :: t => (c :: h) :: t
        | [] => [[c]]

def strSplit (s : String) (sep : Char) : List String :=
  (splitCh sep s.data).map fun l => ⟨l⟩

instance {ε α : Type} [DecidableEq ε] [DecidableEq α] : DecidableEq (Except ε α) := fun a b =>
  match a, b with
  | .ok x, .ok y =>
      if h : x = y then .isTrue (by rw [h]) else .isFalse (by simp [h])
  | .error x, .error y =>
      if h : x = y then .isTrue (by rw [h]) else .isFalse (by simp [h])
  | .ok _, .error _ => .isFalse (by simp)
  | .error _, .ok _ => .isFalse (by simp)

/-! ## SHA-256 (FIPS 180-4), executable over `Nat`, as used by
`crypto/sha256` in `auth.go`. -/

/-- Truncate to a 32-bit word. -/
def w32 (n : Nat) : Nat := n % 4294967296

/-- 32-bit right rotation. -/
def rotr32 (x n : Nat) : Nat := w32 ((x >>> n) ||| (x <<< (32 - n)))

def shaCh (x y z : Nat) : Nat := (x &&& y) ^^^ ((4294967295 - x) &&& z)
def shaMaj (x y z : Nat) : Nat := (x &&& y) ^^^ (x &&& z) ^^^ (y &&& z)
def shaS0 (x : Nat) : Nat := rotr32 x 2 ^^^ rotr32 x 13 ^^^ rotr32 x 22
def shaS1 (x : Nat) : Nat := rotr32 x 6 ^^^ rotr32 x 11 ^^^ rotr32 x 25
def shas0 (x : Nat) : Nat := rotr32 x 7 ^^^ rotr32 x 18 ^^^ (x >>> 3)
def shas1 (x : Nat) : Nat := rotr32 x 17 ^^^ rotr32 x 19 ^^^ (x >>> 10)

def shaK : List Nat :=
  [1116352408, 1899447441, 3049323471, 3921009573, 961987163, 1508970993,
   2453635748, 2870763221, 3624381080, 310598401, 607225278, 1426881987,
   1925078388, 2162078206, 2614888103, 3248222580, 3835390401, 4022224774,
   264347078, 604807628, 770255983, 1249150122, 1555081692, 1996064986,
   2554220882, 2821834349, 2952996808, 3210313671, 3336571891, 3584528711,
   113926993, 338241895, 666307205, 773529912, 1294757372, 1396182291,
   1695183700, 1986661051, 2177026350, 2456956037, 2730485921, 2820302411,
   3259730800, 3345764771, 3516065817, 3600352804, 4094571909, 275423344,
   430227734, 506948616, 659060556, 883997877, 958139571, 1322822218,
   1537002063, 1747873779, 1955562222, 2024104815, 2227730452, 2361852424,
   2428436474, 2756734187, 3204031479, 3329325298]

def shaH0 : List Nat :=
  [1779033703, 3144134277, 1013904242, 2773480762,
   1359893119, 2600822924, 528734635, 1541459225]

/-- Extend the 16-word block to the 64-word message schedule. The list is
kept reversed (most recent word first) so that the four referenced words sit
near the head. -/
def shaExtendR : Nat → List Nat → List Nat
  | 0, rws => rws
  | n + 1, rws =>
      let v := w32 (shas1 (rws.getD 1 0) + rws.getD 6 0 +
                    shas0 (rws.getD 14 0) + rws.getD 15 0)
      shaExtendR n (v :: rws)

/-- One round of the compression function: consume one (K, W) pair.
State is the 8-word list. -/
def shaRound (st : List Nat) (kw : Nat × Nat) : List Nat :=
  match st with
  | [a, b, c, d, e, f, g, h] =>
      let t1 := w32 (h + shaS1 e + shaCh e f g + kw.1 + kw.2)
      let t2 := w32 (shaS0 a + shaMaj a b c)
      [w32 (t1 + t2), a, b, c, w32 (d + t1), e, f, g]
  | st => st

/-- Compress one 64-byte block (given as 16 words) into the hash state. -/
def shaBlock (h : List Nat) (ws16 : List Nat) : List Nat :=
  let ws := (shaExtendR 48 ws16.reverse).reverse
  let st := (shaK.zip ws).foldl shaRound h
  (h.zip st).map fun p => w32 (p.1 + p.2)

/-- Split bytes into big-endian 32-bit words (length divisible by 4). -/
def bytesToWords : List Nat → List Nat
  | b0 :: b1 :: b2 :: b3 :: rest => (((b0 * 256 + b1) * 256 + b2) * 256 + b3) :: bytesToWords rest
  | _ => []

/-- Split a word list into chunks of 16 (fuel-based so it reduces in the
kernel; the fuel is always sufficient). -/
def chunk16F : Nat → List Nat → List (List Nat)
  | 0, _ => []
  | _, [] => []
  | fuel + 1, w :: ws => (w :: ws.take 15) :: chunk16F fuel (ws.drop 15)

def chunk16 (ws : List Nat) : List (List Nat) := chunk16F ws.length ws

/-- SHA-256 padding: 0x80, zeros, then the 64-bit big-endian bit length. -/
def shaPad (msg : List Nat) : List Nat :=
  let len := msg.length
  let zeros := (119 - len % 64) % 64
  let bitLen := len * 8
  msg ++ [128] ++ List.replicate zeros 0 ++
    ((List.range 8).map fun i => (bitLen >>> ((7 - i) * 8)) % 256)

/-- Big-endian bytes of a 32-bit word. -/
def wordBytes (w : Nat) : List Nat :=
  [(w >>> 24) % 256, (w >>> 16) % 256, (w >>> 8) % 256, w % 256]

/-- SHA-256 of a byte string, as 32 digest bytes. -/
def sha256 (msg : List Nat) : List Nat :=
  ((chunk16 (bytesToWords (shaPad msg))).foldl shaBlock shaH0).flatMap wordBytes

/-- Lowercase hex digit. -/
def hexDigit (n : Nat) : Char :=
  if n < 10 then Char.ofNat (48 + n) else Char.ofNat (87 + n)

/-- Lowercase hex encoding of bytes (Go's `hex.EncodeToString`). -/
def hexOfBytes (bs : List Nat) : String :=
  ⟨bs.flatMap fun b => [hexDigit (b / 16), hexDigit (b % 16)]⟩

/-- `sha256Hex` from `auth.go`: hex of the SHA-256 digest. -/
def sha256Hex (data : List Nat) : String :=
  hexOfBytes (sha256 data)

/-- HMAC-SHA256 (`crypto/hmac` with SHA-256), block size 64. -/
def hmacSHA256 (key data : List Nat) : List Nat :=
  let k0 := if key.length > 64 then sha256 key else key
  let kp := k0 ++ List.replicate (64 - k0.length) 0
  let ipad := kp.map (· ^^^ 54)
  let opad := kp.map (· ^^^ 92)
  sha256 (opad ++ sha256 (ipad ++ data))

/-- FIPS 180-4 test vector anchoring the embedded SHA-256. -/
theorem sha256_fips_vector_one : sha256Hex (strBytes "abc") =
    "ba7816bf8f01cfea414140de5dae2223b00361a396177a9cb410ff61f20015ad" := by decide

/-- FIPS 180-4 two-block test vector. -/
theorem sha256_fips_vector_two : sha256Hex (strBytes "abcdbcdecdefdefgefghfghighijhijkijkljklmklmnlmnomnopnopq") =
    "248d6a61d20638b8e5c026930c3e6039a33ce45964ff2167f6ecedd419db06c1" := by decide

/-- RFC 2202-style HMAC-SHA256 test vector. -/
theorem hmac_sha256_vector : hexOfBytes (hmacSHA256 (strBytes "key")
      (strBytes "The quick brown fox jumps over the lazy dog")) =
    "f7bc83f430538424b13298e6aa6fb143ef4d59a14946175997479dbc2d1a3cd8" := by decide

/-! ## String ordering (Go's `sort.Strings`: byte-wise lexicographic; UTF-8
byte order and code-point order coincide) -/

/-- Lexicographic strict order on character lists by code point. -/
def chLt : List Char → List Char → Bool
  | [], [] => false
  | [], _ :: _ => true
  | _ :: _, [] => false
  | a :: as, b :: bs =>
      if a.toNat < b.toNat then true
      else if b.toNat < a.toNat then false
      else chLt as bs

/-- Strict order on strings, as `sort.Strings` compares them. -/
def sLt (s t : String) : Bool := chLt s.data t.data

/-- Ordered insert keeping duplicates (used to model `sort.Strings`). -/
def insOrd (x : String) : List String → List String
  | [] => [x]
  | y :: ys => if sLt x y then x :: y :: ys else y :: insOrd x ys

/-- Ascending sort of strings (insertion sort; the model of `sort.Strings`). -/
def sortStrs (l : List String) : List String := l.foldr insOrd []

/-- Ordered insert of a (name, payload) pair by name, keeping duplicates. -/
def insPair {α : Type} (x : String × α) : List (String × α) → List (String × α)
  | [] => [x]
  | y :: ys => if sLt x.1 y.1 then x :: y :: ys else y :: insPair x ys

/-- Sort (name, payload) pairs by name ascending. -/
def sortByName {α : Type} (l : List (String × α)) : List (String × α) := l.foldr insPair []

/-- Ordered insert without duplicates (used to model a Go set + `sort.Strings`). -/
def insStr (x : String) : List String → List String
  | [] => [x]
  | y :: ys =>
      if sLt x y then x :: y :: ys
      else if x == y then y :: ys
      else y :: insStr x ys

/-- Sorted, duplicate-free list of the given strings. -/
def sortDedup (l : List String) : List String := l.foldr insStr []

/-! ## JSON encoding of string maps (Go `encoding/json`: keys sorted,
HTML-escaping of `<`, `>`, `&` on by default) -/

/-- Metadata: Go's `map[string]string`. Modelled as an association list;
`json.Marshal` sorts the keys, so the map's iteration order never shows. -/
abbrev Metadata := List (String × String)

def metaGet (m : Metadata) (k : String) : Option String :=
  (m.find? fun p => p.1 == k).map Prod.snd

def metaPut (m : Metadata) (k v : String) : Metadata :=
  (m.filter fun p => !(p.1 == k)) ++ [(k, v)]

/-- One character of a JSON string per Go's encoder (with HTML escaping). -/
def jsonEscChar (c : Char) : List Char :=
  if c = '"' then ['\\', '"']
  else if c = '\\' then ['\\', '\\']
  else if c = '\n' then ['\\', 'n']
  else if c = '\r' then ['\\', 'r']
  else if c = '\t' then ['\\', 't']
  else if c = '<' then '\\' :: 'u' :: '0' :: '0' :: '3' :: ['c']
  else if c = '>' then '\\' :: 'u' :: '0' :: '0' :: '3' :: ['e']
  else if c = '&' then '\\' :: 'u' :: '0' :: '0' :: '2' :: ['6']
  else if c.toNat < 32 then '\\' :: 'u' :: '0' :: '0' :: [hexDigit (c.toNat / 16), hexDigit (c.toNat % 16)]
  else if c.toNat = 8232 then '\\' :: 'u' :: '2' :: '0' :: '2' :: ['8']
  else if c.toNat = 8233 then '\\' :: 'u' :: '2' :: '0' :: '2' :: ['9']
  else [c]

/-- A JSON string literal. -/
def jsonStr (s : String) : String := ⟨'"' :: (s.data.flatMap jsonEscChar ++ ['"'])⟩

/-- `json.Marshal` of a `map[string]string`: keys in ascending order. -/
def jsonOfMeta (m : Metadata) : String :=
  "\x7b" ++ String.intercalate "," ((sortByName m).map fun p => jsonStr p.1 ++ ":" ++ jsonStr p.2) ++ "\x7d"

/-- Per-bucket settings (`BucketMetadata` in `metadata.go`). -/
structure BucketMetadata where
  capacityBytes : Int
  retentionDays : Int
deriving DecidableEq, Repr

/-- `json.Marshal` of `BucketMetadata` (struct field order). -/
def jsonOfBM (bm : BucketMetadata) : String :=
  "\x7b\"capacity_bytes\":" ++ toString bm.capacityBytes ++
    ",\"retention_days\":" ++ toString bm.retentionDays ++ "\x7d"

/-- Bucket statistics (`Stats` in `metadata.go`). Counts and sizes are
int64 in Go; they are nonnegative here, so `Nat` is used. -/
structure Stats where
  objectCount : Nat
  usedBytes : Nat
  capacityBytes : Int
deriving DecidableEq, Repr

/-! ## The filesystem model

A path is its list of components relative to the storage root. The state
holds the regular files (with their contents) and the set of directories
that have been created. File contents are either raw bytes (object parts)
or one of the two JSON files the engine writes; the JSON files are stored
structurally, and their on-disk bytes are recovered by the `jsonOf...`
encoders above (Go's unmarshal of its own marshal is the identity). -/

abbrev FPath := List String

inductive Entry where
  | bytes (data : List Nat)
  | meta (m : Metadata)
  | bmeta (bm : BucketMetadata)
deriving DecidableEq, Repr

/-- The on-disk byte content of a file. -/
def entryBytes : Entry → List Nat
  | .bytes d => d
  | .meta m => strBytes (jsonOfMeta m)
  | .bmeta bm => strBytes (jsonOfBM bm)

/-- A file's size in bytes (`os.FileInfo.Size`). -/
def entrySize (e : Entry) : Nat := (entryBytes e).length

structure FS where
  files : List (FPath × Entry)
  dirs : List FPath
deriving DecidableEq, Repr

def emptyFS : FS := ⟨[], []⟩

/-- Storage-engine errors.  `enoent`: the underlying path does not exist
(`os.IsNotExist`-class errors); `noParts`: `Get`'s "no parts found";
`badMeta`: a JSON unmarshal failure. -/
inductive FsErr
  | enoent
  | noParts
  | badMeta
deriving DecidableEq, Repr

def FS.lookup (fs : FS) (p : FPath) : Option Entry :=
  (fs.files.find? fun f => f.1 == p).map Prod.snd

/-- Create or overwrite a regular file. -/
def FS.writeFile (fs : FS) (p : FPath) (e : Entry) : FS :=
  { fs with files := (fs.files.filter fun f => !(f.1 == p)) ++ [(p, e)] }

/-- The nonempty prefixes of a path (the chain of directories it names). -/
def pathDirs : FPath → List FPath
  | [] => []
  | c :: cs => [c] :: (pathDirs cs).map (c :: ·)

/-- `os.MkdirAll`: create the directory and all missing parents. -/
def FS.mkdirAll (fs : FS) (p : FPath) : FS :=
  { fs with dirs := fs.dirs ++ ((pathDirs p).filter fun q => !(fs.dirs.contains q)) }

/-- Does this directory exist?  The root always does; otherwise it was
created explicitly, or some file lives strictly below it. -/
def FS.dirExists (fs : FS) (p : FPath) : Bool :=
  p.isEmpty || fs.dirs.contains p ||
    fs.files.any fun f => p.isPrefixOf f.1 && decide (p.length < f.1.length)

/-- `os.RemoveAll`: drop the whole subtree at `p` (never an error, even if
`p` does not exist). -/
def FS.removeAll (fs : FS) (p : FPath) : FS :=
  { files := fs.files.filter fun f => !(p.isPrefixOf f.1),
    dirs := fs.dirs.filter fun q => !(p.isPrefixOf q) }

/-- `p` minus the prefix `dir`, if `dir` is a prefix. -/
def dropPfx : FPath → FPath → Option FPath
  | [], q => some q
  | _, [] => none
  | c :: cs, d :: ds => if c == d then dropPfx cs ds else none

/-- Extract a file as an immediate child of `dir`: its name and content. -/
def childFun (dir : FPath) (f : FPath × Entry) : Option (String × Entry) :=
  match dropPfx dir f.1 with
  | some [n] => some (n, f.2)
  | _ => none

/-- The regular files that are immediate children of `dir`, as
(name, content) pairs (`os.ReadDir` restricted to non-directories). -/
def FS.childFiles (fs : FS) (dir : FPath) : List (String × Entry) :=
  fs.files.filterMap (childFun dir)

/-- `filepath.Clean` on a relative component list: drop empty and `.`
components, resolve `..` against the stack (never above the root, which is
where the storage root sits). -/
def cleanComps (cs : List String) : List String :=
  cs.foldl (fun acc c =>
    if c = "" || c = "." then acc
    else if c = ".." then acc.dropLast
    else acc ++ [c]) []

/-- `filepath.Join(s.Root, bucket, key)` relative to the root: the key is
split on the separator and the result cleaned. -/
def objPath (bucket key : String) : FPath :=
  cleanComps (bucket :: strSplit key '/')

/-- Slash-joining of path components (how `List` reports keys, mirroring
the `filepath.Dir`/`filepath.Rel` strings of the walk). -/
def joinSlash : List String → String
  | [] => ""
  | [c] => c
  | c :: cs => c ++ "/" ++ joinSlash cs

/-! ## The storage engine (`LocalStorage` in `storage_local.go`) -/

/-- `ensureBucketDir`: make sure the bucket directory exists. -/
def ensureBucketDir (fs : FS) (bucket : String) : FS :=
  fs.mkdirAll [bucket]

/-- `writeMeta`: marshal the metadata and atomically install `data.meta`
(the temp-file-plus-rename is one atomic replacement here, which is exactly
the observable behaviour the rename guarantees). -/
def writeMeta (fs : FS) (objDir : FPath) (meta : Metadata) : FS :=
  fs.writeFile (objDir ++ ["data.meta"]) (.meta meta)

/-- `PutWithMetadata`: write the single part `part.1`, then the metadata. -/
def putWithMetadata (fs : FS) (bucket key : String) (data : List Nat) (meta : Metadata) : FS :=
  let fs1 := ensureBucketDir fs bucket
  let objDir := objPath bucket key
  let fs2 := fs1.mkdirAll objDir
  let fs3 := fs2.writeFile (objDir ++ ["part.1"]) (.bytes data)
  writeMeta fs3 objDir meta

/-- `Put`: `PutWithMetadata` with the fixed default metadata. -/
def put (fs : FS) (bucket key : String) (data : List Nat) : FS :=
  putWithMetadata fs bucket key data [("created_by", "LocalStorage")]

/-- `PutMetadata`. -/
def putMetadata (fs : FS) (bucket key : String) (meta : Metadata) : FS :=
  let fs1 := ensureBucketDir fs bucket
  let objDir := objPath bucket key
  let fs2 := fs1.mkdirAll objDir
  writeMeta fs2 objDir meta

/-- `GetMetadata`: read and unmarshal `data.meta`. -/
def getMetadata (fs : FS) (bucket key : String) : Except FsErr Metadata :=
  match fs.lookup (objPath bucket key ++ ["data.meta"]) with
  | some (.meta m) => .ok m
  | some _ => .error .badMeta
  | none => .error .enoent

/-- `Get`: list the object directory, keep files named `part.*`, sort the
names with `sort.Strings` (byte-wise lexicographic!), concatenate their
contents. The lazily-streamed reader is modelled by the full byte sequence
it yields. -/
def getObject (fs : FS) (bucket key : String) : Except FsErr (List Nat) :=
  let objDir := objPath bucket key
  if !(fs.dirExists objDir) then .error .enoent
  else
    let parts := sortByName ((fs.childFiles objDir).filter fun f => hasPfx f.1 "part.")
    if parts.isEmpty then .error .noParts
    else .ok (parts.flatMap fun f => entryBytes f.2)

/-- `Delete`: remove the object's whole subtree (idempotent). -/
def delete (fs : FS) (bucket key : String) : FS :=
  fs.removeAll (objPath bucket key)

/-- The files under a bucket, as (relative component list, content) pairs. -/
def bucketFiles (fs : FS) (bucket : String) : List (FPath × Entry) :=
  fs.files.filterMap fun f =>
    match f.1 with
    | b :: rest => if b == bucket && !rest.isEmpty then some (rest, f.2) else none
    | [] => none

/-- The key `filepath.Dir` assigns to a walked file: its parent path, or
the file name itself when it sits directly in the bucket root. -/
def keyOf (rel : FPath) : String :=
  if rel.length == 1 then joinSlash rel else joinSlash rel.dropLast

/-- `List`: walk the bucket, skip anything whose first component is
dot-prefixed, collect the parent-directory key of every remaining file
when it matches the prefix as a raw string prefix, then sort and
deduplicate. An absent bucket yields the empty list. -/
def list (fs : FS) (bucket pfx : String) : List String :=
  if !(fs.dirExists [bucket]) then []
  else
    sortDedup ((bucketFiles fs bucket).filterMap fun f =>
      match f.1 with
      | c :: _ =>
          if hasPfx c "." then none
          else
            let k := keyOf f.1
            if pfx == "" || hasPfx k pfx then some k else none
      | [] => none)

/-- `StartMultipart`: ensure `bucket/.multipart` exists and create a fresh
staging directory. `uid` stands for the fresh name `os.MkdirTemp` picks;
its freshness is not modelled. Returns (uploadID, new state). -/
def startMultipart (fs : FS) (bucket key uid : String) : String × FS :=
  let fs1 := ensureBucketDir fs bucket
  let fs2 := fs1.mkdirAll [bucket, ".multipart"]
  let fs3 := fs2.mkdirAll [bucket, ".multipart", uid]
  (uid, fs3)

/-- `UploadPart`: write `part.<n>` into the staging area (creating it if
needed), overwriting any previous upload of the same number. -/
def uploadPart (fs : FS) (bucket key uid : String) (partNumber : Int) (data : List Nat) : FS :=
  let fs1 := ensureBucketDir fs bucket
  let partDir := [bucket, ".multipart", uid]
  let fs2 := fs1.mkdirAll partDir
  fs2.writeFile (partDir ++ ["part." ++ toString partNumber]) (.bytes data)

/-- `os.Rename` of a regular file (the only renames the engine performs).
The source always exists at the call sites below. -/
def renameFile (fs : FS) (src dst : FPath) : FS :=
  match fs.lookup src with
  | some e => (fs.removeAll src).writeFile dst e
  | none => fs

/-- `CompleteMultipart`: fail if the staging directory cannot be listed;
otherwise rename every staged `part.*` (in `sort.Strings` order) into the
destination directory, write the metadata, and remove the staging area. -/
def completeMultipart (fs : FS) (bucket key uid : String) (meta : Metadata) : Except FsErr FS :=
  let fs1 := ensureBucketDir fs bucket
  let partDir := [bucket, ".multipart", uid]
  if !(fs1.dirExists partDir) then .error .enoent
  else
    let objDir := objPath bucket key
    let fs2 := fs1.mkdirAll objDir
    let names := sortStrs (((fs2.childFiles partDir).filter fun f => hasPfx f.1 "part.").map Prod.fst)
    let fs3 := names.foldl (fun acc n => renameFile acc (partDir ++ [n]) (objDir ++ [n])) fs2
    let fs4 := writeMeta fs3 objDir meta
    .ok (fs4.removeAll partDir)

/-- `AbortMultipart`: unconditionally remove the staging area. -/
def abortMultipart (fs : FS) (bucket key uid : String) : FS :=
  (ensureBucketDir fs bucket).removeAll [bucket, ".multipart", uid]

/-- `PutBucketMetadata`: atomic write of `.bucket.meta`. -/
def putBucketMetadata (fs : FS) (bucket : String) (bm : BucketMetadata) : FS :=
  (ensureBucketDir fs bucket).writeFile [bucket, ".bucket.meta"] (.bmeta bm)

/-- `GetBucketMetadata`. -/
def getBucketMetadata (fs : FS) (bucket : String) : Except FsErr BucketMetadata :=
  match fs.lookup [bucket, ".bucket.meta"] with
  | some (.bmeta bm) => .ok bm
  | some _ => .error .badMeta
  | none => .error .enoent

/-- `Stats`: walk the bucket summing sizes of files whose base name starts
with `part.` (skipping files whose base name starts with a dot), count
objects via `List`, copy the capacity from the bucket metadata if present. -/
def stats (fs : FS) (bucket : String) : Stats :=
  if !(fs.dirExists [bucket]) then ⟨0, 0, 0⟩
  else
    let used := (bucketFiles fs bucket).foldl (fun acc f =>
      let name := f.1.getLastD ""
      if hasPfx name "." then acc
      else if hasPfx name "part." then acc + entrySize f.2
      else acc) 0
    let objs := list fs bucket ""
    let cap := match getBucketMetadata fs bucket with
      | .ok bm => bm.capacityBytes
      | .error _ => 0
    ⟨objs.length, used, cap⟩

/-- The 8-byte big-endian encoding of a length (`lnBuf` in `Reconstruct`). -/
def beBytes8 (n : Nat) : List Nat :=
  (List.range 8).map fun i => (n >>> ((7 - i) * 8)) % 256

/-- `Reconstruct`: read the object's metadata (error if absent), build the
header from the requested keys present in the metadata with `filename`
force-included when present, and emit the length-prefixed JSON header
followed by the `part.*` contents in `sort.Strings` name order. The bytes
written to the output file are returned. -/
def reconstruct (fs : FS) (bucket key : String) (includeKeys : List String) : Except FsErr (List Nat) :=
  match getMetadata fs bucket key with
  | .error e => .error e
  | .ok meta =>
    let header := includeKeys.foldl (fun h k =>
      match metaGet meta k with
      | some v => metaPut h k v
      | none => h) []
    let header := match metaGet meta "filename" with
      | some v => metaPut header "filename" v
      | none => header
    let hbin := strBytes (jsonOfMeta header)
    let objDir := objPath bucket key
    if !(fs.dirExists objDir) then .error .enoent
    else
      let parts := sortByName ((fs.childFiles objDir).filter fun f => hasPfx f.1 "part.")
      .ok (beBytes8 hbin.length ++ hbin ++ parts.flatMap fun f => entryBytes f.2)

/-! ## Concrete states used by the claim theorems -/

/-- An object holding parts numbered 2 and 10 (as a completed multipart
upload with ten-plus parts would), with bytes `[2]` and `[10]`. -/
def fsParts210 : FS :=
  ⟨[(["b", "k", "part.2"], .bytes [2]), (["b", "k", "part.10"], .bytes [10]),
    (["b", "k", "data.meta"], .meta [])], [["b"], ["b", "k"]]⟩

/-- Claim C1 (falsified by the code): with parts numbered 2 and 10, `Get`
returns `part.10`'s bytes before `part.2`'s — ascending lexical file-name
order (`sort.Strings`), not the ascending numeric order the specification
and the code's own comment ("collect and sort parts by numeric suffix")
prescribe. `Reconstruct` appends the parts in the same order. -/
theorem c1_parts_lexical_not_numeric :
    getObject fsParts210 "b" "k" = .ok [10, 2] ∧
    getObject fsParts210 "b" "k" ≠ .ok [2, 10] ∧
    reconstruct fsParts210 "b" "k" [] =
      .ok (beBytes8 (strBytes "\x7b\x7d").length ++ strBytes "\x7b\x7d" ++ [10, 2]) :=
  ⟨by decide, by decide, by decide⟩

/-- A bucket whose only content is one staged part (3 bytes) of a
still-open multipart session. -/
def fsStaged : FS :=
  ⟨[(["b", ".multipart", "u1", "part.1"], .bytes [1, 2, 3])],
   [["b"], ["b", ".multipart"], ["b", ".multipart", "u1"]]⟩

/-- Claim C4 counterexample: the bytes of a part uploaded to a still-open
multipart session DO appear in `Stats`' used-bytes sum (the walk only skips
files whose own base name is dot-prefixed), even though `List` surfaces no
object at all. -/
theorem c4_staged_bytes_in_used :
    (stats fsStaged "b").usedBytes = 3 ∧ list fsStaged "b" "" = [] :=
  ⟨by decide, by decide⟩

/-- An object with parts 1 and 2 already present (e.g. from a completed
multipart upload). -/
def fsTwoParts : FS :=
  ⟨[(["b", "k", "part.1"], .bytes [7]), (["b", "k", "part.2"], .bytes [8]),
    (["b", "k", "data.meta"], .meta [])], [["b"], ["b", "k"]]⟩

/-- Claim C5 counterexample: `Put` over an object that previously had two
parts only overwrites `part.1`; the old `part.2` survives, so `Get` returns
the new byte followed by the stale one instead of exactly the new content. -/
theorem c5_put_leaves_stale_part :
    getObject (put fsTwoParts "b" "k" [9]) "b" "k" = .ok [9, 8] ∧
    getObject (put fsTwoParts "b" "k" [9]) "b" "k" ≠ .ok [9] :=
  ⟨by decide, by decide⟩

/-- A bucket with an existing but empty multipart staging area `u1`. -/
def fsEmptyStaging : FS :=
  ⟨[], [["b"], ["b", ".multipart"], ["b", ".multipart", "u1"]]⟩

/-- Claim C3 counterexample: completing a multipart session whose staging
area exists but holds no parts, against the directory-marker key
`"marker/"`, succeeds — no error for the empty staging area, no rejection
of the marker key; the trailing separator is cleaned away and a metadata
file is created at the cleaned key. -/
theorem c3_empty_staging_marker_key_accepted :
    completeMultipart fsEmptyStaging "b" "marker/" "u1" [("a", "b")] =
      .ok ⟨[(["b", "marker", "data.meta"], .meta [("a", "b")])],
           [["b"], ["b", ".multipart"], ["b", "marker"]]⟩ := by decide

/-- An object with parts 2 and 10 and metadata
`{"filename": "file.bin", "tag": "x"}`. -/
def fsRecon : FS :=
  ⟨[(["m", "f", "part.2"], .bytes [2]), (["m", "f", "part.10"], .bytes [10]),
    (["m", "f", "data.meta"], .meta [("filename", "file.bin"), ("tag", "x")])],
   [["m"], ["m", "f"]]⟩

/-- Claim C7 (falsified by the code in its part-order conjunct): the
artifact is the 8-byte big-endian length of the JSON header, the header —
exactly the requested keys present in the metadata, `tag` excluded,
`filename` force-included — and then the parts; but the parts come in
ascending lexical file-name order (`part.10` before `part.2`), not
ascending numeric order. With the metadata absent, `Reconstruct` fails. -/
theorem c7_reconstruct_artifact :
    reconstruct fsRecon "m" "f" ["filename"] =
      .ok (beBytes8 (strBytes "\x7b\"filename\":\"file.bin\"\x7d").length ++
           strBytes "\x7b\"filename\":\"file.bin\"\x7d" ++ [10, 2]) ∧
    reconstruct fsRecon "m" "f" ["filename"] ≠
      .ok (beBytes8 (strBytes "\x7b\"filename\":\"file.bin\"\x7d").length ++
           strBytes "\x7b\"filename\":\"file.bin\"\x7d" ++ [2, 10]) ∧
    ∀ ks, reconstruct (delete fsRecon "m" "f") "m" "f" ks = .error .enoent :=
  ⟨by decide, by decide, fun _ => rfl⟩

/-! ## Lemmas about the filesystem primitives -/

theorem dropPfx_append (d r : FPath) : dropPfx d (d ++ r) = some r := by
  induction d with
  | nil => simp [dropPfx]
  | cons c cs ih => simp [dropPfx, ih]

theorem dropPfx_eq_some {d q r : FPath} : dropPfx d q = some r ↔ q = d ++ r := by
  induction d generalizing q with
  | nil => simp [dropPfx, eq_comm]
  | cons c cs ih =>
    cases q with
    | nil => simp [dropPfx]
    | cons x xs =>
      by_cases h : x = c
      · subst h; simp [dropPfx, ih]
      · simp [dropPfx, h, Ne.symm h]

theorem find?_write_self (l : List (FPath × Entry)) (p : FPath) (e : Entry) :
    List.find? (fun f => f.1 == p) ((l.filter fun f => !(f.1 == p)) ++ [(p, e)]) = some (p, e) := by
  induction l with
  | nil =>
    rw [List.filter_nil, List.nil_append]
    exact List.find?_cons_of_pos _ (beq_self_eq_true p)
  | cons a l ih =>
    cases hb : (a.1 == p) with
    | true =>
      rw [List.filter_cons_of_neg (by rw [hb]; decide)]
      exact ih
    | false =>
      rw [List.filter_cons_of_pos (by rw [hb]; decide), List.cons_append,
          List.find?_cons_of_neg _ (by exact ne_true_of_eq_false hb)]
      exact ih

theorem find?_write_ne (l : List (FPath × Entry)) (p q : FPath) (e : Entry) (h : q ≠ p) :
    List.find? (fun f => f.1 == q) ((l.filter fun f => !(f.1 == p)) ++ [(p, e)]) =
      List.find? (fun f => f.1 == q) l := by
  have hpq : (p == q) = false := beq_eq_false_iff_ne.mpr (Ne.symm h)
  induction l with
  | nil =>
    rw [List.filter_nil, List.nil_append,
        List.find?_cons_of_neg _ (by exact ne_true_of_eq_false hpq)]
  | cons a l ih =>
    cases hb : (a.1 == p) with
    | true =>
      have haq : (a.1 == q) = false := by rw [beq_iff_eq.mp hb]; exact hpq
      rw [List.filter_cons_of_neg (by rw [hb]; decide), ih,
          List.find?_cons_of_neg _ (by exact ne_true_of_eq_false haq)]
    | false =>
      rw [List.filter_cons_of_pos (by rw [hb]; decide), List.cons_append]
      cases haq : (a.1 == q) with
      | true =>
        rw [List.find?_cons_of_pos _ (by exact haq), List.find?_cons_of_pos _ (by exact haq)]
      | false =>
        rw [List.find?_cons_of_neg _ (by exact ne_true_of_eq_false haq),
            List.find?_cons_of_neg _ (by exact ne_true_of_eq_false haq)]
        exact ih

theorem lookup_writeFile_self (fs : FS) (p : FPath) (e : Entry) :
    (fs.writeFile p e).lookup p = some e := by
  show Option.map Prod.snd
    (List.find? (fun f => f.1 == p) ((fs.files.filter fun f => !(f.1 == p)) ++ [(p, e)])) = some e
  rw [find?_write_self]
  rfl

theorem lookup_writeFile_ne (fs : FS) (p q : FPath) (e : Entry) (h : q ≠ p) :
    (fs.writeFile p e).lookup q = fs.lookup q := by
  show Option.map Prod.snd
    (List.find? (fun f => f.1 == q) ((fs.files.filter fun f => !(f.1 == p)) ++ [(p, e)])) = _
  rw [find?_write_ne _ _ _ _ h]
  rfl

theorem lookup_mkdirAll (fs : FS) (p q : FPath) :
    (fs.mkdirAll p).lookup q = fs.lookup q := rfl

theorem childFiles_mkdirAll (fs : FS) (p dir : FPath) :
    (fs.mkdirAll p).childFiles dir = fs.childFiles dir := rfl

theorem dirs_writeFile (fs : FS) (p : FPath) (e : Entry) :
    (fs.writeFile p e).dirs = fs.dirs := rfl

theorem childFun_write (dir : FPath) (n : String) (e : Entry) :
    childFun dir (dir ++ [n], e) = some (n, e) := by
  simp [childFun, dropPfx_append]

/-- Every file is either an immediate child of `dir` (with a unique name)
or not a child at all. -/
theorem childFun_cases (dir : FPath) (f : FPath × Entry) :
    (∃ n, f.1 = dir ++ [n] ∧ childFun dir f = some (n, f.2)) ∨
    ((∀ n, f.1 ≠ dir ++ [n]) ∧ childFun dir f = none) := by
  unfold childFun
  rcases hd : dropPfx dir f.1 with _ | r
  · refine .inr ⟨fun n hc => ?_, rfl⟩
    rw [hc, dropPfx_append] at hd; cases hd
  · rcases r with _ | ⟨m, _ | ⟨x, xs⟩⟩
    · refine .inr ⟨fun n hc => ?_, rfl⟩
      rw [hc, dropPfx_append] at hd; simp at hd
    · exact .inl ⟨m, dropPfx_eq_some.mp hd, rfl⟩
    · refine .inr ⟨fun n hc => ?_, rfl⟩
      rw [hc, dropPfx_append] at hd; simp at hd

theorem childFiles_writeFile_child (fs : FS) (dir : FPath) (n : String) (e : Entry) :
    (fs.writeFile (dir ++ [n]) e).childFiles dir =
      ((fs.childFiles dir).filter fun x => !(x.1 == n)) ++ [(n, e)] := by
  have hw : List.filterMap (childFun dir) [(dir ++ [n], e)] = [(n, e)] := by
    simp [List.filterMap, childFun_write]
  show List.filterMap (childFun dir) ((fs.files.filter fun f => !(f.1 == dir ++ [n])) ++ [(dir ++ [n], e)]) =
    (List.filterMap (childFun dir) fs.files).filter (fun x => !(x.1 == n)) ++ [(n, e)]
  rw [List.filterMap_append, hw]
  congr 1
  generalize fs.files = l
  induction l with
  | nil => rfl
  | cons a l ih =>
    rcases childFun_cases dir a with ⟨m, ha, hc⟩ | ⟨hnot, hc⟩
    · by_cases hmn : m = n
      · subst hmn
        have hT : (a.1 == dir ++ [m]) = true := beq_iff_eq.mpr ha
        rw [List.filter_cons_of_neg (by rw [hT]; decide),
            List.filterMap_cons, hc,
            List.filter_cons_of_neg (by rw [beq_self_eq_true]; decide)]
        exact ih
      · have hne : (a.1 == dir ++ [n]) = false := by
          rw [ha]; exact beq_eq_false_iff_ne.mpr (by simp [hmn])
        have hmn2 : (m == n) = false := beq_eq_false_iff_ne.mpr hmn
        rw [List.filter_cons_of_pos (by rw [hne]; decide),
            List.filterMap_cons, hc, List.filterMap_cons, hc,
            List.filter_cons_of_pos (by rw [hmn2]; decide), ih]
    · have hne : (a.1 == dir ++ [n]) = false := beq_eq_false_iff_ne.mpr (hnot n)
      rw [List.filter_cons_of_pos (by rw [hne]; decide),
          List.filterMap_cons, hc, List.filterMap_cons, hc, ih]

theorem self_mem_pathDirs (p : FPath) (h : p ≠ []) : p ∈ pathDirs p := by
  cases p with
  | nil => exact absurd rfl h
  | cons c cs =>
    cases hcs : cs with
    | nil => simp [pathDirs]
    | cons d ds =>
      have : cs ∈ pathDirs cs := self_mem_pathDirs cs (by rw [hcs]; simp)
      rw [← hcs]
      exact .tail _ (List.mem_map.mpr ⟨cs, this, rfl⟩)

theorem contains_mkdirAll_self (fs : FS) (p : FPath) (h : p ≠ []) :
    (fs.mkdirAll p).dirs.contains p = true := by
  unfold FS.mkdirAll
  rw [List.elem_iff, List.mem_append]
  cases hc : fs.dirs.contains p with
  | true => exact .inl (List.elem_iff.mp hc)
  | false =>
    refine .inr (List.mem_filter.mpr ⟨self_mem_pathDirs p h, ?_⟩)
    rw [hc]; rfl

theorem dirExists_of_contains (fs : FS) (p : FPath) (h : fs.dirs.contains p = true) :
    fs.dirExists p = true := by
  unfold FS.dirExists
  rw [h]
  simp

theorem dirExists_put (fs : FS) (bucket key : String) (data : List Nat) :
    (put fs bucket key data).dirExists (objPath bucket key) = true := by
  by_cases h : objPath bucket key = []
  · rw [h]; rfl
  · apply dirExists_of_contains
    show ((((ensureBucketDir fs bucket).mkdirAll (objPath bucket key))).dirs).contains _ = true
    exact contains_mkdirAll_self _ _ h

/-! ## Claim C9: `Put` always installs the fixed default metadata -/

/-- Claim C9: `Put` without an explicit metadata mapping always writes the
one-entry mapping created_by ↦ LocalStorage for that key, replacing
whatever was stored, and a subsequent `GetMetadata` returns exactly it. -/
theorem c9_put_default_metadata (fs : FS) (bucket key : String) (data : List Nat) :
    getMetadata (put fs bucket key data) bucket key =
      .ok [("created_by", "LocalStorage")] := by
  unfold put putWithMetadata writeMeta getMetadata
  rw [lookup_writeFile_self]

/-! ## Claim C6: Put/Get round trip -/

theorem parts_filter_nil (C : List (String × Entry))
    (h : ∀ x ∈ C, hasPfx x.1 "part." = true → x.1 = "part.1") :
    (((C.filter fun x => !(x.1 == "part.1")).filter fun x => !(x.1 == "data.meta")).filter
      fun f => hasPfx f.1 "part.") = [] := by
  rw [List.filter_eq_nil_iff]
  intro x hx hp
  have hx2 := List.mem_filter.mp hx
  have hx3 := List.mem_filter.mp hx2.1
  have hx1 := h x hx3.1 hp
  have hne := hx3.2
  rw [hx1] at hne
  simp at hne

/-- Claim C6: for every bucket, key and byte content (the empty content
included), `Put` then `Get` on the same (bucket, key) yields exactly the
bytes that were put — for any prior state in which the key's directory has
no part file other than `part.1` (in particular, a fresh key; a state with
stray higher-numbered parts instead falls under C5's counterexample). -/
theorem c6_put_get_roundtrip (fs : FS) (bucket key : String) (data : List Nat)
    (h : ∀ x ∈ fs.childFiles (objPath bucket key),
      hasPfx x.1 "part." = true → x.1 = "part.1") :
    getObject (put fs bucket key data) bucket key = .ok data := by
  have hd := dirExists_put fs bucket key data
  have hch : (put fs bucket key data).childFiles (objPath bucket key) =
      ((((fs.childFiles (objPath bucket key)).filter fun x => !(x.1 == "part.1"))
        ++ [("part.1", Entry.bytes data)]).filter fun x => !(x.1 == "data.meta"))
        ++ [("data.meta", Entry.meta [("created_by", "LocalStorage")])] := by
    show (((((ensureBucketDir fs bucket).mkdirAll (objPath bucket key)).writeFile
        (objPath bucket key ++ ["part.1"]) (Entry.bytes data)).writeFile
        (objPath bucket key ++ ["data.meta"])
        (Entry.meta [("created_by", "LocalStorage")])).childFiles (objPath bucket key)) = _
    rw [childFiles_writeFile_child, childFiles_writeFile_child]
    rfl
  have hparts : ((put fs bucket key data).childFiles (objPath bucket key)).filter
      (fun f => hasPfx f.1 "part.") = [("part.1", Entry.bytes data)] := by
    rw [hch]
    simp only [List.filter_append]
    rw [parts_filter_nil _ h]
    rfl
  unfold getObject
  simp only [hd, hparts]
  simp [sortByName, insPair, entryBytes]

/-! ## The string order and sorted-set lemmas -/

theorem chLt_trans {a b c : List Char} (h1 : chLt a b = true) (h2 : chLt b c = true) :
    chLt a c = true := by
  induction a generalizing b c with
  | nil =>
    cases c with
    | nil => cases b with
      | nil => exact absurd h1 (by simp [chLt])
      | cons y ys => exact absurd h2 (by simp [chLt])
    | cons z zs => simp [chLt]
  | cons x xs ih =>
    cases b with
    | nil => exact absurd h1 (by simp [chLt])
    | cons y ys =>
      cases c with
      | nil => exact absurd h2 (by simp [chLt])
      | cons z zs =>
        unfold chLt at h1 h2 ⊢
        by_cases hxy : x.toNat < y.toNat
        · by_cases hyz : y.toNat < z.toNat
          · rw [if_pos (Nat.lt_trans hxy hyz)]
          · rw [if_neg hyz] at h2
            by_cases hzy : z.toNat < y.toNat
            · rw [if_pos hzy] at h2; cases h2
            · have : y.toNat = z.toNat := Nat.le_antisymm (Nat.le_of_not_lt hzy) (Nat.le_of_not_lt hyz)
              rw [if_pos (this ▸ hxy)]
        · rw [if_neg hxy] at h1
          by_cases hyx : y.toNat < x.toNat
          · rw [if_pos hyx] at h1; cases h1
          · have hxy2 : x.toNat = y.toNat := Nat.le_antisymm (Nat.le_of_not_lt hyx) (Nat.le_of_not_lt hxy)
            rw [if_neg hyx] at h1
            by_cases hyz : y.toNat < z.toNat
            · rw [if_pos (hxy2 ▸ hyz)]
            · rw [if_neg hyz] at h2
              by_cases hzy : z.toNat < y.toNat
              · rw [if_pos hzy] at h2; cases h2
              · rw [if_neg hzy] at h2
                rw [if_neg (hxy2 ▸ hyz), if_neg (hxy2 ▸ hzy)]
                exact ih h1 h2

theorem chLt_or_eq_or (a b : List Char) :
    chLt a b = true ∨ a = b ∨ chLt b a = true := by
  induction a generalizing b with
  | nil =>
    cases b with
    | nil => exact .inr (.inl rfl)
    | cons y ys => exact .inl (by simp [chLt])
  | cons x xs ih =>
    cases b with
    | nil => exact .inr (.inr (by simp [chLt]))
    | cons y ys =>
      by_cases hxy : x.toNat < y.toNat
      · exact .inl (by unfold chLt; rw [if_pos hxy])
      · by_cases hyx : y.toNat < x.toNat
        · exact .inr (.inr (by unfold chLt; rw [if_pos hyx]))
        · have hx : x = y := Char.ext (UInt32.ext
            (Nat.le_antisymm (Nat.le_of_not_lt hyx) (Nat.le_of_not_lt hxy)))
          subst hx
          rcases ih ys with h | h | h
          · exact .inl (by unfold chLt; rw [if_neg hxy, if_neg hyx]; exact h)
          · exact .inr (.inl (by rw [h]))
          · exact .inr (.inr (by unfold chLt; rw [if_neg hxy, if_neg hyx]; exact h))

theorem sLt_trans {a b c : String} (h1 : sLt a b = true) (h2 : sLt b c = true) :
    sLt a c = true := chLt_trans h1 h2

theorem sLt_or_eq_or (a b : String) : sLt a b = true ∨ a = b ∨ sLt b a = true := by
  rcases chLt_or_eq_or a.data b.data with h | h | h
  · exact .inl h
  · exact .inr (.inl (String.ext h))
  · exact .inr (.inr h)

theorem mem_insStr {x y : String} {l : List String} :
    x ∈ insStr y l ↔ x = y ∨ x ∈ l := by
  induction l with
  | nil => simp [insStr]
  | cons z zs ih =>
    unfold insStr
    by_cases h1 : sLt y z = true
    · simp [h1]
    · rw [if_neg h1]
      by_cases h2 : (y == z) = true
      · rw [if_pos h2]
        have : y = z := beq_iff_eq.mp h2
        subst this
        constructor
        · intro hm; exact .inr hm
        · rintro (rfl | hm)
          · exact .head _
          · exact hm
      · rw [if_neg h2]
        constructor
        · intro hm
          rcases List.mem_cons.mp hm with rfl | hm
          · exact .inr (.head _)
          · rcases ih.mp hm with h | h
            · exact .inl h
            · exact .inr (.tail _ h)
        · rintro (rfl | hm)
          · exact .tail _ (ih.mpr (.inl rfl))
          · rcases List.mem_cons.mp hm with rfl | hm
            · exact .head _
            · exact .tail _ (ih.mpr (.inr hm))

theorem mem_sortDedup {x : String} {l : List String} :
    x ∈ sortDedup l ↔ x ∈ l := by
  induction l with
  | nil => simp [sortDedup]
  | cons y ys ih =>
    show x ∈ insStr y (sortDedup ys) ↔ _
    rw [mem_insStr, List.mem_cons, ih]

/-- Strict sortedness (the pairwise `<` relation used for `List`'s result). -/
def strSorted (l : List String) : Prop := l.Pairwise fun a b => sLt a b = true

theorem pairwise_insStr {y : String} {l : List String} (h : strSorted l) :
    strSorted (insStr y l) := by
  induction l with
  | nil => exact List.pairwise_singleton _ _
  | cons z zs ih =>
    unfold insStr
    by_cases h1 : sLt y z = true
    · rw [if_pos h1]
      refine List.Pairwise.cons ?_ h
      intro b hb
      rcases List.mem_cons.mp hb with rfl | hb
      · exact h1
      · exact sLt_trans h1 (List.rel_of_pairwise_cons h hb)
    · rw [if_neg h1]
      by_cases h2 : (y == z) = true
      · rw [if_pos h2]; exact h
      · rw [if_neg h2]
        have hzy : sLt z y = true := by
          rcases sLt_or_eq_or y z with h3 | h3 | h3
          · exact absurd h3 h1
          · exact absurd (beq_iff_eq.mpr h3) h2
          · exact h3
        refine List.Pairwise.cons ?_ (ih (List.Pairwise.sublist (List.sublist_cons_self z zs) h))
        intro b hb
        rcases mem_insStr.mp hb with rfl | hb
        · exact hzy
        · exact List.rel_of_pairwise_cons h hb

theorem pairwise_sortDedup (l : List String) : strSorted (sortDedup l) := by
  induction l with
  | nil => exact List.Pairwise.nil
  | cons y ys ih => exact pairwise_insStr ih

/-! ## Characterizing `list` (Claim C8) -/

theorem mem_bucketFiles {fs : FS} {bucket : String} {rest : FPath} {e : Entry} :
    (rest, e) ∈ bucketFiles fs bucket ↔ (bucket :: rest, e) ∈ fs.files ∧ rest ≠ [] := by
  unfold bucketFiles
  rw [List.mem_filterMap]
  constructor
  · rintro ⟨⟨p, e'⟩, hf, hg⟩
    cases p with
    | nil => exact absurd hg (by simp)
    | cons b' rest' =>
      have hg' : (if (b' == bucket && !rest'.isEmpty) = true
          then some (rest', e') else none) = some (rest, e) := hg
      by_cases hc : (b' == bucket && !rest'.isEmpty) = true
      · rw [if_pos hc] at hg'
        have h1 : rest' = rest := congrArg Prod.fst (Option.some.inj hg')
        have h2 : e' = e := congrArg Prod.snd (Option.some.inj hg')
        have hb : b' = bucket := beq_iff_eq.mp (Bool.and_elim_left hc)
        have hr : rest'.isEmpty = false := by
          cases hi : rest'.isEmpty
          · rfl
          · rw [hi] at hc; simp at hc
        subst h1; subst h2; subst hb
        refine ⟨hf, ?_⟩
        intro hE
        rw [hE] at hr
        simp at hr
      · rw [if_neg hc] at hg'
        cases hg'
  · rintro ⟨hmem, hne⟩
    refine ⟨(bucket :: rest, e), hmem, ?_⟩
    have hr : rest.isEmpty = false := by
      cases rest with
      | nil => exact absurd rfl hne
      | cons _ _ => rfl
    show (if (bucket == bucket && !rest.isEmpty) = true then some (rest, e) else none) = some (rest, e)
    rw [if_pos (by rw [beq_self_eq_true, hr]; rfl)]

theorem mem_list_iff {fs : FS} {bucket pfx k : String} :
    k ∈ list fs bucket pfx ↔
      fs.dirExists [bucket] = true ∧
      ∃ c cs e, (bucket :: c :: cs, e) ∈ fs.files ∧ hasPfx c "." = false ∧
        keyOf (c :: cs) = k ∧ (pfx == "" || hasPfx k pfx) = true := by
  unfold list
  cases hd : fs.dirExists [bucket] with
  | false => simp
  | true =>
    rw [if_neg (by simp)]
    rw [mem_sortDedup, List.mem_filterMap]
    constructor
    · rintro ⟨⟨rest, e⟩, hmem, hg⟩
      have hbf := mem_bucketFiles.mp hmem
      cases rest with
      | nil => exact absurd rfl hbf.2
      | cons c cs =>
        have hg' : (if hasPfx c "." = true then (none : Option String)
            else if (pfx == "" || hasPfx (keyOf (c :: cs)) pfx) = true
              then some (keyOf (c :: cs)) else none) = some k := hg
        by_cases hdot : hasPfx c "." = true
        · rw [if_pos hdot] at hg'; cases hg'
        · rw [if_neg hdot] at hg'
          by_cases hp : (pfx == "" || hasPfx (keyOf (c :: cs)) pfx) = true
          · rw [if_pos hp] at hg'
            have hk := Option.some.inj hg'
            subst hk
            exact ⟨rfl, c, cs, e, hbf.1, Bool.eq_false_iff.mpr hdot, rfl, hp⟩
          · rw [if_neg hp] at hg'; cases hg'
    · rintro ⟨-, c, cs, e, hmem, hdot, hk, hp⟩
      refine ⟨(c :: cs, e), mem_bucketFiles.mpr ⟨hmem, by simp⟩, ?_⟩
      show (if hasPfx c "." = true then (none : Option String)
          else if (pfx == "" || hasPfx (keyOf (c :: cs)) pfx) = true
            then some (keyOf (c :: cs)) else none) = some k
      rw [if_neg (by rw [hdot]; simp), hk, if_pos hp]

theorem chLt_irrefl (a : List Char) : chLt a a = false := by
  induction a with
  | nil => rfl
  | cons x xs ih =>
    unfold chLt
    rw [if_neg (Nat.lt_irrefl _), if_neg (Nat.lt_irrefl _)]
    exact ih

theorem sLt_ne {a b : String} (h : sLt a b = true) : a ≠ b := by
  intro he
  subst he
  rw [show sLt a a = chLt a.data a.data from rfl, chLt_irrefl] at h
  cases h

/-- Claim C8: for every bucket and prefix, `List` returns a strictly
sorted (hence duplicate-free) list containing exactly the keys of
non-reserved walked files whose key string starts with the prefix as a raw
string-prefix match, and the empty list when the bucket does not exist. -/
theorem c8_list_semantics (fs : FS) (bucket pfx : String) :
    strSorted (list fs bucket pfx) ∧
    (list fs bucket pfx).Nodup ∧
    (fs.dirExists [bucket] = false → list fs bucket pfx = []) ∧
    (∀ k, k ∈ list fs bucket pfx ↔
      fs.dirExists [bucket] = true ∧
      ∃ c cs e, (bucket :: c :: cs, e) ∈ fs.files ∧ hasPfx c "." = false ∧
        keyOf (c :: cs) = k ∧ (pfx == "" || hasPfx k pfx) = true) := by
  have hs : strSorted (list fs bucket pfx) := by
    unfold list
    by_cases hd : fs.dirExists [bucket] = true
    · rw [hd, if_neg (by simp)]
      exact pairwise_sortDedup _
    · rw [Bool.eq_false_iff.mpr hd, if_pos (by simp)]
      exact List.Pairwise.nil
  refine ⟨hs, hs.imp fun h => sLt_ne h, fun h => ?_, fun k => mem_list_iff⟩
  unfold list
  rw [h, if_pos (by simp)]

/-- Witness for C8 at a concrete state: the bucket holds objects
`abc/x` and `ab` plus a staged multipart part; the raw-string prefix "ab"
selects both `ab` and `abc/x` (not segment-aligned), sorted and without
the reserved entry. -/
def fsListDemo : FS :=
  ⟨[(["b", "abc", "x", "part.1"], .bytes [1]), (["b", "ab", "part.1"], .bytes [2]),
    (["b", ".multipart", "u1", "part.1"], .bytes [3])],
   [["b"], ["b", ".multipart"], ["b", ".multipart", "u1"]]⟩

theorem c8_list_semantics_witness :
    strSorted (list fsListDemo "b" "ab") ∧
    list emptyFS "nosuch" "" = [] ∧
    ("abc/x" ∈ list fsListDemo "b" "ab" ↔
      FS.dirExists fsListDemo ["b"] = true ∧
      ∃ c cs e, ("b" :: c :: cs, e) ∈ fsListDemo.files ∧ hasPfx c "." = false ∧
        keyOf (c :: cs) = "abc/x" ∧ (("ab" == "") || hasPfx "abc/x" "ab") = true) :=
  ⟨(c8_list_semantics fsListDemo "b" "ab").1,
   (c8_list_semantics emptyFS "nosuch" "").2.2.1 (by decide),
   (c8_list_semantics fsListDemo "b" "ab").2.2.2 "abc/x"⟩

theorem c6_put_get_roundtrip_witness :
    getObject (put emptyFS "b" "some/key" [1, 2, 3]) "b" "some/key" = .ok [1, 2, 3] :=
  c6_put_get_roundtrip emptyFS "b" "some/key" [1, 2, 3] (by decide)

/-! ## Claim C4 (amended): reserved entries vs. listing, counting, used bytes -/

theorem hasPfx_dot_joinSlash (c : String) (cs : List String) (h : hasPfx c "." = false) :
    hasPfx (joinSlash (c :: cs)) "." = false := by
  cases cs with
  | nil => exact h
  | cons d ds =>
    show hasPfx (c ++ "/" ++ joinSlash (d :: ds)) "." = false
    unfold hasPfx at h ⊢
    rw [String.data_append, String.data_append]
    cases hc : c.data with
    | nil => simp [List.isPrefixOf]
    | cons ch chs =>
      rw [hc] at h
      simp only [List.isPrefixOf, List.cons_append] at h ⊢
      simpa using h

theorem keyOf_not_dot (c : String) (cs : List String) (h : hasPfx c "." = false) :
    hasPfx (keyOf (c :: cs)) "." = false := by
  unfold keyOf
  cases cs with
  | nil => simpa [joinSlash]
  | cons d ds =>
    rw [if_neg (by simp)]
    have hdl : (c :: d :: ds).dropLast = c :: (d :: ds).dropLast := rfl
    rw [hdl]
    exact hasPfx_dot_joinSlash c _ h

theorem hasPfx_part_not_dot (s : String) (h : hasPfx s "part." = true) :
    hasPfx s "." = false := by
  unfold hasPfx at h ⊢
  cases hc : s.data with
  | nil => rw [hc] at h; cases h
  | cons ch chs =>
    rw [hc] at h
    simp only [List.isPrefixOf, Bool.and_eq_true, beq_iff_eq] at h
    rcases h with ⟨rfl, -⟩
    simp [List.isPrefixOf]

theorem foldl_add_shift (L : List (FPath × Entry)) (g : FPath × Entry → Nat) (acc : Nat) :
    L.foldl (fun a f => a + g f) acc = acc + (L.map g).sum := by
  induction L generalizing acc with
  | nil => simp
  | cons a l ih =>
    rw [List.foldl_cons, ih, List.map_cons, List.sum_cons]
    omega

/-- The used-bytes walk body, as a per-file contribution. -/
def usedContrib (f : FPath × Entry) : Nat :=
  if hasPfx (f.1.getLastD "") "." = true then 0
  else if hasPfx (f.1.getLastD "") "part." = true then entrySize f.2 else 0

theorem sum_usedContrib (L : List (FPath × Entry)) :
    (L.map usedContrib).sum =
      ((L.filter fun f => hasPfx (f.1.getLastD "") "part.").map fun f => entrySize f.2).sum := by
  induction L with
  | nil => rfl
  | cons a l ih =>
    rw [List.map_cons, List.sum_cons, ih]
    by_cases hp : hasPfx (a.1.getLastD "") "part." = true
    · rw [List.filter_cons_of_pos (by exact hp), List.map_cons, List.sum_cons]
      unfold usedContrib
      rw [if_neg (by rw [hasPfx_part_not_dot _ hp]; simp), if_pos hp]
    · rw [List.filter_cons_of_neg (by exact hp)]
      unfold usedContrib
      by_cases hdot : hasPfx (a.1.getLastD "") "." = true
      · rw [if_pos hdot]; omega
      · rw [if_neg hdot, if_neg hp]; omega

/-- Claim C4 (amended): `List` never surfaces a key beginning with the
reserved marker, `Stats`' object count is exactly the length of `List`'s
result, and `Stats`' used-bytes sum is the total size of every file whose
base name starts with `part.` — including parts staged under the
`.multipart` area, which therefore DO contribute (the original claim's
used-bytes exclusion fails; see the counterexample). -/
theorem c4_reserved_entries_amended (fs : FS) (bucket : String) :
    (∀ k ∈ list fs bucket "", hasPfx k "." = false) ∧
    (stats fs bucket).objectCount = (list fs bucket "").length ∧
    (fs.dirExists [bucket] = true →
      (stats fs bucket).usedBytes =
        (((bucketFiles fs bucket).filter fun f =>
          hasPfx (f.1.getLastD "") "part.").map fun f => entrySize f.2).sum) := by
  refine ⟨?_, ?_, ?_⟩
  · intro k hk
    rcases (mem_list_iff.mp hk).2 with ⟨c, cs, e, -, hdot, hkey, -⟩
    rw [← hkey]
    exact keyOf_not_dot c cs hdot
  · unfold stats
    by_cases hd : fs.dirExists [bucket] = true
    · rw [hd, if_neg (by simp)]
    · rw [Bool.eq_false_iff.mpr hd, if_pos (by simp)]
      unfold list
      rw [Bool.eq_false_iff.mpr hd, if_pos (by simp)]
      rfl
  · intro hd
    unfold stats
    rw [hd, if_neg (by simp)]
    show (bucketFiles fs bucket).foldl _ 0 = _
    have hbody : (fun (acc : Nat) (f : FPath × Entry) =>
        if hasPfx (f.1.getLastD "") "." = true then acc
        else if hasPfx (f.1.getLastD "") "part." = true then acc + entrySize f.2 else acc) =
        fun acc f => acc + usedContrib f := by
      funext acc f
      unfold usedContrib
      by_cases h1 : hasPfx (f.1.getLastD "") "." = true
      · rw [if_pos h1, if_pos h1]; omega
      · rw [if_neg h1, if_neg h1]
        by_cases h2 : hasPfx (f.1.getLastD "") "part." = true
        · rw [if_pos h2, if_pos h2]
        · rw [if_neg h2, if_neg h2]; omega
    rw [hbody, foldl_add_shift, sum_usedContrib]
    omega

theorem c4_reserved_entries_amended_witness :
    (∀ k ∈ list fsStaged "b" "", hasPfx k "." = false) ∧
    (stats fsStaged "b").usedBytes =
      (((bucketFiles fsStaged "b").filter fun f =>
        hasPfx (f.1.getLastD "") "part.").map fun f => entrySize f.2).sum :=
  ⟨(c4_reserved_entries_amended fsStaged "b").1,
   (c4_reserved_entries_amended fsStaged "b").2.2 (by decide)⟩

/-! ## Claim C5 (amended): what `Put` actually overwrites -/

/-- Claim C5 (amended): `Put`/`PutWithMetadata` installs the new content
as `part.1` and the metadata as `data.meta`, and leaves every other path
— in particular higher-numbered parts of a previously committed multipart
object — exactly as it was; so `Get` after `Put` returns only the new
bytes precisely when no other part file existed (C6), and stale parts
survive otherwise (see the counterexample). -/
theorem c5_put_overwrite_amended (fs : FS) (bucket key : String) (data : List Nat) (meta : Metadata) :
    (putWithMetadata fs bucket key data meta).lookup (objPath bucket key ++ ["part.1"]) =
      some (.bytes data) ∧
    (putWithMetadata fs bucket key data meta).lookup (objPath bucket key ++ ["data.meta"]) =
      some (.meta meta) ∧
    (∀ p, p ≠ objPath bucket key ++ ["part.1"] → p ≠ objPath bucket key ++ ["data.meta"] →
      (putWithMetadata fs bucket key data meta).lookup p = fs.lookup p) := by
  refine ⟨?_, ?_, ?_⟩
  · show ((((ensureBucketDir fs bucket).mkdirAll (objPath bucket key)).writeFile
      (objPath bucket key ++ ["part.1"]) (Entry.bytes data)).writeFile
      (objPath bucket key ++ ["data.meta"]) (Entry.meta meta)).lookup
      (objPath bucket key ++ ["part.1"]) = some (Entry.bytes data)
    rw [lookup_writeFile_ne _ _ _ _ (by simp), lookup_writeFile_self]
  · exact lookup_writeFile_self _ _ _
  · intro p h1 h2
    show ((((ensureBucketDir fs bucket).mkdirAll (objPath bucket key)).writeFile
      (objPath bucket key ++ ["part.1"]) (Entry.bytes data)).writeFile
      (objPath bucket key ++ ["data.meta"]) (Entry.meta meta)).lookup p = fs.lookup p
    rw [lookup_writeFile_ne _ _ _ _ h2, lookup_writeFile_ne _ _ _ _ h1]
    rfl

theorem c5_put_overwrite_amended_witness :
    (putWithMetadata fsTwoParts "b" "k" [9] [("m", "v")]).lookup ["b", "k", "part.1"] =
      some (.bytes [9]) ∧
    (putWithMetadata fsTwoParts "b" "k" [9] [("m", "v")]).lookup ["b", "k", "part.2"] =
      FS.lookup fsTwoParts ["b", "k", "part.2"] :=
  ⟨(c5_put_overwrite_amended fsTwoParts "b" "k" [9] [("m", "v")]).1,
   (c5_put_overwrite_amended fsTwoParts "b" "k" [9] [("m", "v")]).2.2
     ["b", "k", "part.2"] (by decide) (by decide)⟩

/-! ## Claim C10: bucket-directory creation as a side effect -/

theorem head_of_isPrefixOf_cons {b : String} {rest q : FPath}
    (h : (b :: rest).isPrefixOf q = true) : q.head? = some b := by
  cases q with
  | nil => cases h
  | cons x xs =>
    simp only [List.isPrefixOf, Bool.and_eq_true, beq_iff_eq] at h
    rw [h.1]
    rfl

/-- Claim C10: `AbortMultipart`, `StartMultipart` and `UploadPart` each
create the bucket directory as a side effect; in particular,
`AbortMultipart` on a never-seen bucket and unknown upload ID succeeds
and leaves behind exactly a newly created, otherwise empty bucket
directory — files untouched, one new directory entry. -/
theorem c10_bucket_dir_side_effect :
    (∀ (fs : FS) (bucket key uid : String),
      (∀ p ∈ fs.dirs, p.head? ≠ some bucket) →
      (∀ f ∈ fs.files, f.1.head? ≠ some bucket) →
      abortMultipart fs bucket key uid = ⟨fs.files, fs.dirs ++ [[bucket]]⟩) ∧
    (∀ (fs : FS) (bucket key uid : String) (n : Int) (data : List Nat),
      [bucket] ∈ (uploadPart fs bucket key uid n data).dirs) ∧
    (∀ (fs : FS) (bucket key uid : String),
      [bucket] ∈ ((startMultipart fs bucket key uid).2).dirs) := by
  refine ⟨?_, ?_, ?_⟩
  · intro fs bucket key uid hd hf
    have hcon : fs.dirs.contains [bucket] = false := by
      cases hc : fs.dirs.contains [bucket]
      · rfl
      · exact absurd rfl (hd [bucket] (List.elem_iff.mp hc))
    have hdirs1 : (ensureBucketDir fs bucket).dirs = fs.dirs ++ [[bucket]] := by
      show fs.dirs ++ ((pathDirs [bucket]).filter fun q => !(fs.dirs.contains q)) = _
      rw [show pathDirs [bucket] = [[bucket]] from rfl]
      rw [List.filter_cons_of_pos (by rw [hcon]; rfl)]
      rfl
    unfold abortMultipart FS.removeAll
    refine congrArg₂ FS.mk ?_ ?_
    · show (ensureBucketDir fs bucket).files.filter _ = fs.files
      rw [show (ensureBucketDir fs bucket).files = fs.files from rfl]
      exact List.filter_eq_self.mpr fun f hfm => by
        cases hpre : ([bucket, ".multipart", uid] : FPath).isPrefixOf f.1
        · rfl
        · exact absurd (head_of_isPrefixOf_cons hpre) (hf f hfm)
    · rw [hdirs1, List.filter_append]
      have h1 : fs.dirs.filter (fun q => !(([bucket, ".multipart", uid] : FPath).isPrefixOf q)) =
          fs.dirs := List.filter_eq_self.mpr fun q hq => by
        cases hpre : ([bucket, ".multipart", uid] : FPath).isPrefixOf q
        · rfl
        · exact absurd (head_of_isPrefixOf_cons hpre) (hd q hq)
      have hpre2 : (!(([bucket, ".multipart", uid] : FPath).isPrefixOf [bucket])) = true := by
        show (!((bucket == bucket) && (([".multipart", uid] : FPath).isPrefixOf ([] : FPath)))) = true
        rw [show ((([".multipart", uid] : FPath)).isPrefixOf ([] : FPath)) = false from rfl, Bool.and_false]
        rfl
      have h2 : ([[bucket]] : List FPath).filter
          (fun q => !(([bucket, ".multipart", uid] : FPath).isPrefixOf q)) = [[bucket]] := by
        rw [List.filter_cons_of_pos (by exact hpre2)]
        rfl
      rw [h1, h2]
  · intro fs bucket key uid n data
    show [bucket] ∈ (((ensureBucketDir fs bucket).mkdirAll
      [bucket, ".multipart", uid]).writeFile _ _).dirs
    rw [dirs_writeFile]
    exact List.mem_append.mpr (.inl (List.elem_iff.mp (contains_mkdirAll_self fs [bucket] (by simp))))
  · intro fs bucket key uid
    show [bucket] ∈ (((ensureBucketDir fs bucket).mkdirAll
      [bucket, ".multipart"]).mkdirAll [bucket, ".multipart", uid]).dirs
    refine List.mem_append.mpr (.inl (List.mem_append.mpr (.inl ?_)))
    exact List.elem_iff.mp (contains_mkdirAll_self fs [bucket] (by simp))

/-! ## Claim C3 (amended): support lemmas -/

theorem find?_filter_of_keep {l : List (FPath × Entry)} {keep pred : FPath × Entry → Bool}
    (h : ∀ a, pred a = true → keep a = true) :
    (l.filter keep).find? pred = l.find? pred := by
  induction l with
  | nil => rfl
  | cons a l ih =>
    cases hp : pred a with
    | true =>
      rw [List.filter_cons_of_pos (h a hp), List.find?_cons_of_pos _ (by exact hp),
          List.find?_cons_of_pos _ (by exact hp)]
    | false =>
      cases hk : keep a with
      | true =>
        rw [List.filter_cons_of_pos (by exact hk),
            List.find?_cons_of_neg _ (by exact ne_true_of_eq_false hp),
            List.find?_cons_of_neg _ (by exact ne_true_of_eq_false hp)]
        exact ih
      | false =>
        rw [List.filter_cons_of_neg (by exact ne_true_of_eq_false hk),
            List.find?_cons_of_neg _ (by exact ne_true_of_eq_false hp)]
        exact ih

theorem find?_filter_of_drop {l : List (FPath × Entry)} {keep pred : FPath × Entry → Bool}
    (h : ∀ a, pred a = true → keep a = false) :
    (l.filter keep).find? pred = none := by
  induction l with
  | nil => rfl
  | cons a l ih =>
    cases hk : keep a with
    | true =>
      have hp : pred a = false := by
        cases hp : pred a
        · rfl
        · rw [h a hp] at hk; cases hk
      rw [List.filter_cons_of_pos (by exact hk),
          List.find?_cons_of_neg _ (by exact ne_true_of_eq_false hp)]
      exact ih
    | false =>
      rw [List.filter_cons_of_neg (by exact ne_true_of_eq_false hk)]
      exact ih

theorem lookup_removeAll_not_pref (fs : FS) (p q : FPath)
    (h : p.isPrefixOf q = false) :
    (fs.removeAll p).lookup q = fs.lookup q := by
  unfold FS.removeAll FS.lookup
  show Option.map Prod.snd ((fs.files.filter _).find? _) = _
  rw [find?_filter_of_keep]
  intro a ha
  rw [beq_iff_eq.mp ha, h]
  rfl

theorem lookup_removeAll_pref (fs : FS) (p q : FPath)
    (h : p.isPrefixOf q = true) :
    (fs.removeAll p).lookup q = none := by
  unfold FS.removeAll FS.lookup
  show Option.map Prod.snd ((fs.files.filter _).find? _) = _
  rw [find?_filter_of_drop]
  · rfl
  · intro a ha
    rw [beq_iff_eq.mp ha, h]
    rfl

theorem dirExists_ensure (fs : FS) (bucket : String) (q : FPath) (hq : q.length ≠ 1) :
    (ensureBucketDir fs bucket).dirExists q = fs.dirExists q := by
  unfold ensureBucketDir FS.mkdirAll FS.dirExists
  have hflt : ∀ x ∈ ((pathDirs [bucket]).filter fun x => !(fs.dirs.contains x)), x = [bucket] := by
    intro x hx
    exact List.mem_singleton.mp (by exact (List.mem_filter.mp hx).1)
  have hc : ((fs.dirs ++ ((pathDirs [bucket]).filter fun x => !(fs.dirs.contains x))).contains q) =
      fs.dirs.contains q := by
    cases h1 : fs.dirs.contains q with
    | true => exact List.elem_iff.mpr (List.mem_append.mpr (.inl (List.elem_iff.mp h1)))
    | false =>
      cases h2 : ((fs.dirs ++ ((pathDirs [bucket]).filter fun x => !(fs.dirs.contains x))).contains q) with
      | false => rfl
      | true =>
        exfalso
        rcases List.mem_append.mp (List.elem_iff.mp h2) with hm | hm
        · exact absurd (List.elem_iff.mpr hm) (ne_true_of_eq_false h1)
        · exact hq (by rw [hflt q hm]; rfl)
  rw [hc]

theorem isPrefixOf_concat_cases {p q : FPath} {n : String}
    (h : p.isPrefixOf (q ++ [n]) = true) : p.isPrefixOf q = true ∨ p = q ++ [n] := by
  rcases List.prefix_concat_iff.mp (List.isPrefixOf_iff_prefix.mp h) with h' | h'
  · exact .inr h'
  · exact .inl (List.isPrefixOf_iff_prefix.mpr h')

theorem concat_inj_pair {a b : FPath} {x y : String} (h : a ++ [x] = b ++ [y]) :
    a = b ∧ x = y := by
  have hlen : a.length = b.length := by
    have := congrArg List.length h
    simp at this
    exact this
  have := List.append_inj h hlen
  exact ⟨this.1, by injection this.2 with h1 _⟩

theorem isPrefixOf_concat_same_ne {p : FPath} {n m : String} (h : n ≠ m) :
    (p ++ [n]).isPrefixOf (p ++ [m]) = false := by
  cases hc : (p ++ [n]).isPrefixOf (p ++ [m])
  · rfl
  · exfalso
    have := (List.prefix_append_right_inj p).mp (List.isPrefixOf_iff_prefix.mp hc)
    rcases this with ⟨t, ht⟩
    injection ht with h1 _
    exact h h1

theorem childFun_some_inv {dir : FPath} {f : FPath × Entry} {n : String} {e : Entry}
    (h : childFun dir f = some (n, e)) : f.1 = dir ++ [n] ∧ f.2 = e := by
  rcases childFun_cases dir f with ⟨m, hm, hc⟩ | ⟨-, hc⟩
  · rw [hc] at h
    have h1 : m = n := congrArg Prod.fst (Option.some.inj h)
    have h2 : f.2 = e := congrArg Prod.snd (Option.some.inj h)
    exact ⟨h1 ▸ hm, h2⟩
  · rw [hc] at h; cases h

theorem childFiles_names_nodup (files : List (FPath × Entry)) (dir : FPath)
    (h : (files.map Prod.fst).Nodup) :
    ((files.filterMap (childFun dir)).map Prod.fst).Nodup := by
  induction files with
  | nil => exact List.nodup_nil
  | cons f l ih =>
    rw [List.map_cons] at h
    have h1 := List.nodup_cons.mp h
    rw [List.filterMap_cons]
    cases hc : childFun dir f with
    | none => exact ih h1.2
    | some p =>
      rcases p with ⟨n, e⟩
      have hf1 : f.1 = dir ++ [n] := (childFun_some_inv hc).1
      rw [List.map_cons]
      refine List.nodup_cons.mpr ⟨?_, ih h1.2⟩
      intro hmem
      rcases List.mem_map.mp hmem with ⟨⟨n', e'⟩, hmem', he⟩
      rcases List.mem_filterMap.mp hmem' with ⟨g, hg, hgc⟩
      have hg1 : g.1 = dir ++ [n'] := (childFun_some_inv hgc).1
      apply h1.1
      rw [List.mem_map]
      refine ⟨g, hg, ?_⟩
      rw [hg1, hf1]
      have hn : n' = n := he
      rw [hn]

theorem insOrd_perm (x : String) (l : List String) : (insOrd x l).Perm (x :: l) := by
  induction l with
  | nil => exact List.Perm.refl _
  | cons y ys ih =>
    unfold insOrd
    by_cases h : sLt x y = true
    · rw [if_pos h]
    · rw [if_neg h]
      exact (List.Perm.cons y ih).trans (List.Perm.swap x y ys)

theorem sortStrs_perm (l : List String) : (sortStrs l).Perm l := by
  induction l with
  | nil => exact List.Perm.refl _
  | cons y ys ih =>
    show (insOrd y (sortStrs ys)).Perm _
    exact (insOrd_perm y (sortStrs ys)).trans (List.Perm.cons y ih)

theorem lookup_mem_exists (fs : FS) (p : FPath) (e : Entry) (h : (p, e) ∈ fs.files) :
    ∃ e', fs.lookup p = some e' := by
  unfold FS.lookup
  have hs : (fs.files.find? fun f => f.1 == p).isSome = true :=
    List.find?_isSome.mpr ⟨(p, e), h, beq_self_eq_true p⟩
  rcases ho : fs.files.find? (fun f => f.1 == p) with _ | f
  · rw [ho] at hs; cases hs
  · exact ⟨f.2, by rw [ho]; rfl⟩

theorem isPrefixOf_of_concat_left {pdir objDir : FPath} {m k : String}
    (hpo : pdir.isPrefixOf (objDir ++ [k]) = false) :
    (pdir ++ [m]).isPrefixOf (objDir ++ [k]) = false := by
  cases hp : (pdir ++ [m]).isPrefixOf (objDir ++ [k])
  · rfl
  · exfalso
    have h2 : pdir <+: objDir ++ [k] :=
      (List.prefix_append pdir [m]).trans (List.isPrefixOf_iff_prefix.mp hp)
    rw [List.isPrefixOf_iff_prefix.mpr h2] at hpo
    cases hpo

theorem fold_rename (pdir objDir : FPath)
    (hpo : ∀ n, pdir.isPrefixOf (objDir ++ [n]) = false) :
    ∀ (names : List String) (st : FS), names.Nodup →
      (∀ n ∈ names, ∃ e, st.lookup (pdir ++ [n]) = some e) →
      (∀ n ∈ names,
        (names.foldl (fun acc k => renameFile acc (pdir ++ [k]) (objDir ++ [k])) st).lookup
          (objDir ++ [n]) = st.lookup (pdir ++ [n])) ∧
      (∀ q, (∀ m ∈ names, (pdir ++ [m]).isPrefixOf q = false ∧ q ≠ objDir ++ [m]) →
        (names.foldl (fun acc k => renameFile acc (pdir ++ [k]) (objDir ++ [k])) st).lookup q =
          st.lookup q) := by
  intro names
  induction names with
  | nil =>
    intro st _ _
    exact ⟨fun n hn => absurd hn (List.not_mem_nil n), fun q _ => rfl⟩
  | cons k rest ih =>
    intro st hnd hbase
    have hndr := List.nodup_cons.mp hnd
    obtain ⟨ek, hek⟩ := hbase k (List.mem_cons_self k rest)
    have hst' : renameFile st (pdir ++ [k]) (objDir ++ [k]) =
        ((st.removeAll (pdir ++ [k])).writeFile (objDir ++ [k]) ek) := by
      unfold renameFile
      rw [hek]
    have hpk : ∀ m, pdir ++ [m] ≠ objDir ++ [k] := by
      intro m hcontra
      have hp : pdir.isPrefixOf (pdir ++ [m]) = true :=
        List.isPrefixOf_iff_prefix.mpr (List.prefix_append _ _)
      rw [hcontra] at hp
      have h2 := hpo k
      rw [hp] at h2
      cases h2
    have hL1 : ∀ m, m ≠ k →
        (renameFile st (pdir ++ [k]) (objDir ++ [k])).lookup (pdir ++ [m]) =
          st.lookup (pdir ++ [m]) := by
      intro m hm
      rw [hst', lookup_writeFile_ne _ _ _ _ (hpk m),
          lookup_removeAll_not_pref _ _ _ (isPrefixOf_concat_same_ne (Ne.symm hm))]
    have hbase' : ∀ n ∈ rest, ∃ e, (renameFile st (pdir ++ [k]) (objDir ++ [k])).lookup
        (pdir ++ [n]) = some e := by
      intro n hn
      rw [hL1 n (fun he => hndr.1 (he ▸ hn))]
      exact hbase n (List.mem_cons_of_mem k hn)
    obtain ⟨IHA, IHB⟩ := ih (renameFile st (pdir ++ [k]) (objDir ++ [k])) hndr.2 hbase'
    constructor
    · intro n hn
      rcases List.mem_cons.mp hn with rfl | hn'
      · show (rest.foldl _ (renameFile st (pdir ++ [n]) (objDir ++ [n]))).lookup _ = _
        rw [IHB (objDir ++ [n]) ?cond, hst', lookup_writeFile_self, hek]
        case cond =>
          intro m hm
          refine ⟨isPrefixOf_of_concat_left (hpo n), ?_⟩
          intro he
          have := (concat_inj_pair he).2
          exact hndr.1 (this ▸ hm)
      · show (rest.foldl _ (renameFile st (pdir ++ [k]) (objDir ++ [k]))).lookup _ = _
        rw [IHA n hn', hL1 n (fun he => hndr.1 (he ▸ hn'))]
    · intro q hq
      show (rest.foldl _ (renameFile st (pdir ++ [k]) (objDir ++ [k]))).lookup _ = _
      rw [IHB q (fun m hm => hq m (List.mem_cons_of_mem k hm)), hst',
          lookup_writeFile_ne _ _ _ _ (hq k (List.mem_cons_self k rest)).2,
          lookup_removeAll_not_pref _ _ _ (hq k (List.mem_cons_self k rest)).1]

/-- The state `CompleteMultipart` commits on success (parts renamed in
sorted name order, metadata written, staging area removed). -/
def completedState (fs : FS) (bucket key uid : String) (m : Metadata) : FS :=
  (((sortStrs ((((((ensureBucketDir fs bucket).mkdirAll (objPath bucket key))).childFiles
      [bucket, ".multipart", uid]).filter fun f => hasPfx f.1 "part.").map Prod.fst)).foldl
    (fun acc n => renameFile acc ([bucket, ".multipart", uid] ++ [n]) (objPath bucket key ++ [n]))
    ((ensureBucketDir fs bucket).mkdirAll (objPath bucket key))).writeFile
    (objPath bucket key ++ ["data.meta"]) (.meta m)).removeAll [bucket, ".multipart", uid]

/-- Claim C3 (amended): `CompleteMultipart` fails (with the underlying
not-exist error) exactly when the staging area for the uploadID is
missing. An existing staging area — even an empty one — is accepted: the
staged `part.*` files are renamed into the destination object directory
(the key is path-cleaned first, so a trailing separator is dropped rather
than rejected), the metadata is written (after the renames in the code),
and the staging area is deleted. The hypotheses rule out degenerate keys
that collide with the staging area itself, plus duplicate paths. -/
theorem c3_complete_multipart_amended (fs : FS) (bucket key uid : String) (m : Metadata)
    (HN : (fs.files.map Prod.fst).Nodup)
    (H1 : ([bucket, ".multipart", uid] : FPath).isPrefixOf (objPath bucket key) = false)
    (H2 : objPath bucket key ≠ [bucket, ".multipart"]) :
    (fs.dirExists [bucket, ".multipart", uid] = false →
      completeMultipart fs bucket key uid m = .error .enoent) ∧
    (fs.dirExists [bucket, ".multipart", uid] = true →
      ∃ fs', completeMultipart fs bucket key uid m = .ok fs' ∧
        fs'.lookup (objPath bucket key ++ ["data.meta"]) = some (.meta m) ∧
        (∀ q, ([bucket, ".multipart", uid] : FPath).isPrefixOf q = true →
          fs'.lookup q = none) ∧
        (∀ n ∈ sortStrs (((fs.childFiles [bucket, ".multipart", uid]).filter
            fun f => hasPfx f.1 "part.").map Prod.fst),
          fs'.lookup (objPath bucket key ++ [n]) =
            fs.lookup ([bucket, ".multipart", uid] ++ [n]))) := by
  have hpo : ∀ n, ([bucket, ".multipart", uid] : FPath).isPrefixOf
      (objPath bucket key ++ [n]) = false := by
    intro n
    cases hp : ([bucket, ".multipart", uid] : FPath).isPrefixOf (objPath bucket key ++ [n])
    · rfl
    · exfalso
      rcases isPrefixOf_concat_cases hp with h' | h'
      · rw [h'] at H1; cases H1
      · apply H2
        have := congrArg List.dropLast h'
        rw [List.dropLast_concat] at this
        exact this.symm
  constructor
  · intro HS
    simp only [completeMultipart]
    rw [show (ensureBucketDir fs bucket).dirExists [bucket, ".multipart", uid] = false from
      (dirExists_ensure fs bucket _ (by simp)).trans HS]
    rfl
  · intro HS
    have hcond : (ensureBucketDir fs bucket).dirExists [bucket, ".multipart", uid] = true :=
      (dirExists_ensure fs bucket _ (by simp)).trans HS
    refine ⟨completedState fs bucket key uid m, ?_, ?_, ?_, ?_⟩
    · simp only [completeMultipart, completedState]
      rw [hcond]
      rfl
    · show ((((sortStrs (((fs.childFiles [bucket, ".multipart", uid]).filter
          fun f => hasPfx f.1 "part.").map Prod.fst)).foldl
          (fun acc n => renameFile acc ([bucket, ".multipart", uid] ++ [n])
            (objPath bucket key ++ [n]))
          ((ensureBucketDir fs bucket).mkdirAll (objPath bucket key))).writeFile
          (objPath bucket key ++ ["data.meta"]) (.meta m)).removeAll
          [bucket, ".multipart", uid]).lookup (objPath bucket key ++ ["data.meta"]) =
          some (.meta m)
      rw [lookup_removeAll_not_pref _ _ _ (hpo "data.meta"), lookup_writeFile_self]
    · intro q hq
      exact lookup_removeAll_pref _ _ _ hq
    · intro n hn
      have hnames_nodup : (sortStrs (((fs.childFiles [bucket, ".multipart", uid]).filter
          fun f => hasPfx f.1 "part.").map Prod.fst)).Nodup := by
        refine ((sortStrs_perm _).nodup_iff).mpr ?_
        refine List.Nodup.sublist (List.Sublist.map Prod.fst (List.filter_sublist _)) ?_
        exact childFiles_names_nodup fs.files [bucket, ".multipart", uid] HN
      have hmem_names : ∀ k ∈ (((fs.childFiles [bucket, ".multipart", uid]).filter
          fun f => hasPfx f.1 "part.").map Prod.fst),
          hasPfx k "part." = true ∧ ∃ e, (([bucket, ".multipart", uid] : FPath) ++ [k], e) ∈ fs.files := by
        intro k hk
        rcases List.mem_map.mp hk with ⟨⟨k', e⟩, hkmem, hfst⟩
        have hk' : k' = k := hfst
        subst hk'
        have hflt := List.mem_filter.mp hkmem
        rcases List.mem_filterMap.mp hflt.1 with ⟨g, hg, hgc⟩
        have hg1 := childFun_some_inv hgc
        exact ⟨hflt.2, ⟨e, by rw [← hg1.1]; rw [← hg1.2]; exact hg⟩⟩
      have hbase : ∀ k ∈ sortStrs (((fs.childFiles [bucket, ".multipart", uid]).filter
          fun f => hasPfx f.1 "part.").map Prod.fst),
          ∃ e, ((ensureBucketDir fs bucket).mkdirAll (objPath bucket key)).lookup
            (([bucket, ".multipart", uid] : FPath) ++ [k]) = some e := by
        intro k hk
        rcases (hmem_names k ((sortStrs_perm _).mem_iff.mp hk)).2 with ⟨e, he⟩
        exact lookup_mem_exists _ _ e he
      obtain ⟨FA, FB⟩ := fold_rename [bucket, ".multipart", uid] (objPath bucket key) hpo
        (sortStrs (((fs.childFiles [bucket, ".multipart", uid]).filter
          fun f => hasPfx f.1 "part.").map Prod.fst))
        ((ensureBucketDir fs bucket).mkdirAll (objPath bucket key)) hnames_nodup hbase
      have hpn : hasPfx n "part." = true :=
        (hmem_names n ((sortStrs_perm _).mem_iff.mp hn)).1
      have hne_dm : objPath bucket key ++ [n] ≠ objPath bucket key ++ ["data.meta"] := by
        intro he
        have hnd := (concat_inj_pair he).2
        rw [hnd] at hpn
        cases hpn
      show ((((sortStrs (((fs.childFiles [bucket, ".multipart", uid]).filter
          fun f => hasPfx f.1 "part.").map Prod.fst)).foldl
          (fun acc k => renameFile acc ([bucket, ".multipart", uid] ++ [k])
            (objPath bucket key ++ [k]))
          ((ensureBucketDir fs bucket).mkdirAll (objPath bucket key))).writeFile
          (objPath bucket key ++ ["data.meta"]) (.meta m)).removeAll
          [bucket, ".multipart", uid]).lookup (objPath bucket key ++ [n]) =
          fs.lookup ([bucket, ".multipart", uid] ++ [n])
      rw [lookup_removeAll_not_pref _ _ _ (hpo n),
          lookup_writeFile_ne _ _ _ _ hne_dm, FA n hn]
      rfl

theorem c10_bucket_dir_side_effect_witness :
    abortMultipart emptyFS "b" "k" "u9" = ⟨[], [["b"]]⟩ ∧
    ["b2"] ∈ (uploadPart emptyFS "b2" "k" "u" 1 [1]).dirs :=
  ⟨c10_bucket_dir_side_effect.1 emptyFS "b" "k" "u9" (by decide) (by decide),
   c10_bucket_dir_side_effect.2.1 emptyFS "b2" "k" "u" 1 [1]⟩

/-- A bucket with two staged parts in the open session `u1`. -/
def fsStagedTwo : FS :=
  ⟨[(["b", ".multipart", "u1", "part.1"], .bytes [1]),
    (["b", ".multipart", "u1", "part.2"], .bytes [2])],
   [["b"], ["b", ".multipart"], ["b", ".multipart", "u1"]]⟩

theorem c3_complete_multipart_amended_witness :
    completeMultipart emptyFS "b" "k" "u9" [] = .error .enoent ∧
    ∃ fs', completeMultipart fsStagedTwo "b" "k" "u1" [("x", "y")] = .ok fs' ∧
      fs'.lookup (objPath "b" "k" ++ ["data.meta"]) = some (.meta [("x", "y")]) ∧
      (∀ q, (["b", ".multipart", "u1"] : FPath).isPrefixOf q = true → fs'.lookup q = none) ∧
      (∀ n ∈ sortStrs (((FS.childFiles fsStagedTwo ["b", ".multipart", "u1"]).filter
          fun f => hasPfx f.1 "part.").map Prod.fst),
        fs'.lookup (objPath "b" "k" ++ [n]) =
          FS.lookup fsStagedTwo (["b", ".multipart", "u1"] ++ [n])) :=
  ⟨(c3_complete_multipart_amended emptyFS "b" "k" "u9" []
      (by decide) (by decide) (by decide)).1 (by decide),
   (c3_complete_multipart_amended fsStagedTwo "b" "k" "u1" [("x", "y")]
      (by decide) (by decide) (by decide)).2 (by decide)⟩

/-! ## The authentication validator (`internal/server/auth.go`)

Requests are modelled with their parsed URL fields (method, escaped path,
raw query, host), the header map as `net/http` stores it (keys in
canonical MIME form), and an optional body as bytes. All byte-sensitive
canonicalization is done on UTF-8 byte lists, exactly as Go operates on
`[]byte`/`string` bytes. ASCII case mapping matches Go on the ASCII header
names and values used by the protocol. -/

def strToLower (s : String) : String := ⟨s.data.map Char.toLower⟩

/-- `textproto.CanonicalMIMEHeaderKey` on valid token keys: uppercase the
first letter and every letter following a hyphen, lowercase the rest. -/
def canonKeyAux : Bool → List Char → List Char
  | _, [] => []
  | up, c :: cs => (if up then c.toUpper else c.toLower) :: canonKeyAux (c = '-') cs

def canonicalHeaderKey (s : String) : String := ⟨canonKeyAux true s.data⟩

structure Request where
  method : String
  escapedPath : String
  rawQuery : String
  host : String
  headers : List (String × List String)
  body : Option (List Nat)
deriving DecidableEq, Repr

/-- `r.Header[name]` (exact lookup in the canonical-key map). -/
def headerValues (r : Request) (name : String) : List String :=
  match r.headers.find? (fun h => h.1 == name) with
  | some h => h.2
  | none => []

/-- `r.Header.Get(name)`: canonicalize the key, first value or empty. -/
def headerGet (r : Request) (name : String) : String :=
  match headerValues r (canonicalHeaderKey name) with
  | [] => ""
  | v :: _ => v

/-- ASCII whitespace as `unicode.IsSpace` classifies it. -/
def isSpaceGo (c : Char) : Bool :=
  c == ' ' || c == '\t' || c == '\n' || c == Char.ofNat 11 || c == Char.ofNat 12 || c == '\r'

def trimSpace (s : String) : String :=
  ⟨((s.data.dropWhile isSpaceGo).reverse.dropWhile isSpaceGo).reverse⟩

/-- `strings.Fields` (fuel-based so it reduces in the kernel). -/
def wordsF : Nat → List Char → List (List Char)
  | 0, _ => []
  | _, [] => []
  | fuel + 1, c :: cs =>
      if isSpaceGo c then wordsF fuel cs
      else (c :: cs.takeWhile (fun x => !isSpaceGo x)) ::
        wordsF fuel (cs.dropWhile (fun x => !isSpaceGo x))

def fieldsGo (s : String) : List String := (wordsF s.data.length s.data).map fun l => ⟨l⟩

/-- Collapse internal whitespace runs: `strings.Join(strings.Fields(v), " ")`. -/
def collapseWS (v : String) : String := String.intercalate " " (fieldsGo v)

/-- `strings.SplitN(s, "=", 2)`. -/
def splitN2 (s : String) : List String :=
  match strSplit s '=' with
  | [] => [s]
  | [x] => [x]
  | x :: xs => [x, String.intercalate "=" xs]

structure AuthHeader where
  credentialParts : List String
  signedHeaders : List String
  signature : String
deriving DecidableEq, Repr

/-- `parseAuthHeader`: the payload after the scheme tag is comma-separated
`Credential=...`, `SignedHeaders=...`, `Signature=...` fields. -/
def parseAuthHeader (rest : String) : Option AuthHeader :=
  let ah := (strSplit rest ',').foldl (fun (ah : AuthHeader) p =>
    match splitN2 (trimSpace p) with
    | [k, v] =>
        if k == "Credential" then { ah with credentialParts := strSplit v '/' }
        else if k == "SignedHeaders" then { ah with signedHeaders := strSplit v ';' }
        else if k == "Signature" then { ah with signature := v }
        else ah
    | _ => ah) ⟨[], [], ""⟩
  if ah.credentialParts.isEmpty || ah.signedHeaders.isEmpty || ah.signature == "" then none
  else some ah

/-- `ensurePayloadHash`: trust a supplied `X-Amz-Content-Sha256` header;
otherwise hash the (fully buffered) body, or the empty payload if there is
none. The restored body is the same bytes, so the request is unchanged. -/
def ensurePayloadHash (r : Request) : String :=
  let h := headerGet r "X-Amz-Content-Sha256"
  if h ≠ "" then h
  else
    match r.body with
    | none => sha256Hex []
    | some data => sha256Hex data

/-! Byte-level URL canonicalization. -/

def splitByte (sep : Nat) : List Nat → List (List Nat)
  | [] => [[]]
  | c :: cs =>
      let r := splitByte sep cs
      if c = sep then [] :: r
      else
        match r with
        | h :: t => (c :: h) :: t
        | [] => [[c]]

def joinByte (sep : Nat) : List (List Nat) → List Nat
  | [] => []
  | [x] => x
  | x :: xs => x ++ sep :: joinByte sep xs

def unhexNibble (c : Nat) : Option Nat :=
  if 48 ≤ c ∧ c ≤ 57 then some (c - 48)
  else if 65 ≤ c ∧ c ≤ 70 then some (c - 55)
  else if 97 ≤ c ∧ c ≤ 102 then some (c - 87)
  else none

/-- Percent-decoding; `none` on a malformed escape. -/
def pctDecode : List Nat → Option (List Nat)
  | [] => some []
  | 37 :: a :: b :: rest =>
      match unhexNibble a, unhexNibble b with
      | some x, some y => (pctDecode rest).map fun t => (x * 16 + y) :: t
      | _, _ => none
  | 37 :: _ => none
  | c :: rest => (pctDecode rest).map fun t => c :: t

/-- `decodePercents` (via `url.PathUnescape`): on error return the input. -/
def decodePercents (seg : List Nat) : List Nat :=
  match pctDecode seg with
  | some d => d
  | none => seg

def upHexDigit (n : Nat) : Nat := if n < 10 then 48 + n else 55 + n

/-- `awsURLEncode`: unreserved bytes pass, everything else becomes
uppercase-hex percent encoding; `/` passes only when not encoding slashes. -/
def awsURLEncode (bs : List Nat) (encodeSlash : Bool) : List Nat :=
  bs.flatMap fun c =>
    if (65 ≤ c ∧ c ≤ 90) ∨ (97 ≤ c ∧ c ≤ 122) ∨ (48 ≤ c ∧ c ≤ 57) ∨
        c = 45 ∨ c = 95 ∨ c = 46 ∨ c = 126 then [c]
    else if c = 47 ∧ encodeSlash = false then [47]
    else [37, upHexDigit (c / 16), upHexDigit (c % 16)]

/-- `canonicalURI`: decode then re-encode each `/`-delimited segment. -/
def canonicalURI (path : List Nat) : List Nat :=
  if path.isEmpty then [47]
  else joinByte 47 ((splitByte 47 path).map fun s => awsURLEncode (decodePercents s) false)

/-- `url.QueryUnescape`: `+` is a space, then percent-decoding. -/
def queryUnescape (bs : List Nat) : Option (List Nat) :=
  pctDecode (bs.map fun c => if c = 43 then 32 else c)

/-- `url.ParseQuery` as the code consumes it: the (key, value) pairs that
parse; segments with `;` in them, empty keys, and bad escapes are skipped
(the error the code ignores). -/
def parseQueryPairs (raw : List Nat) : List (List Nat × List Nat) :=
  (splitByte 38 raw).filterMap fun seg =>
    if seg.contains 59 then none
    else if seg.isEmpty then none
    else
      let k := seg.takeWhile fun c => !(c == 61)
      let v := match seg.drop k.length with
        | [] => []
        | _ :: t => t
      match queryUnescape k, queryUnescape v with
      | some k', some v' => some (k', v')
      | _, _ => none

def byteLt : List Nat → List Nat → Bool
  | [], [] => false
  | [], _ :: _ => true
  | _ :: _, [] => false
  | a :: as, b :: bs =>
      if a < b then true else if b < a then false else byteLt as bs

def insByteDedup (x : List Nat) : List (List Nat) → List (List Nat)
  | [] => [x]
  | y :: ys =>
      if byteLt x y then x :: y :: ys
      else if x == y then y :: ys
      else y :: insByteDedup x ys

def insByteKeep (x : List Nat) : List (List Nat) → List (List Nat)
  | [] => [x]
  | y :: ys => if byteLt x y then x :: y :: ys else y :: insByteKeep x ys

/-- `canonicalQueryString`: sorted keys, values sorted per key, both
AWS-encoded, joined `k=v` with `&`. -/
def canonicalQueryString (raw : List Nat) : List Nat :=
  if raw.isEmpty then []
  else
    let pairs := parseQueryPairs raw
    let keys := (pairs.map Prod.fst).foldr insByteDedup []
    joinByte 38 (keys.flatMap fun k =>
      (((pairs.filter fun p => p.1 == k).map Prod.snd).foldr insByteKeep []).map fun v =>
        awsURLEncode k true ++ 61 :: awsURLEncode v true)

/-- `canonicalHeaders` over the (already lowercased and sorted) signed
names: each `name:value\n`, values whitespace-collapsed and comma-joined,
a virtual `host` from the request, any other missing name a hard error. -/
def canonicalHeadersB (r : Request) : List String → Option (List Nat)
  | [] => some []
  | name :: rest =>
      match headerValues r (canonicalHeaderKey name) with
      | [] =>
          if name == "host" then
            if r.host == "" then none
            else (canonicalHeadersB r rest).map fun tl =>
              strBytes name ++ 58 :: (strBytes (trimSpace r.host) ++ 10 :: tl)
          else none
      | v :: vs =>
          (canonicalHeadersB r rest).map fun tl =>
            strBytes name ++ 58 ::
              (strBytes (String.intercalate "," ((v :: vs).map collapseWS)) ++ 10 :: tl)

def joinByteNL : List (List Nat) → List Nat
  | [] => []
  | [x] => x
  | x :: xs => x ++ 10 :: joinByteNL xs

/-- `buildCanonicalRequest`: the six newline-joined components; the signed
header list is lowercased and sorted first (as `canonicalHeaders` does in
place) and reused for the signed-names line. -/
def buildCanonicalRequest (r : Request) (signedRaw : List String) (payloadHash : String) :
    Option (List Nat) :=
  let signed := sortStrs (signedRaw.map strToLower)
  match canonicalHeadersB r signed with
  | none => none
  | some hdrs =>
      some (joinByteNL [strBytes r.method,
        canonicalURI (strBytes r.escapedPath),
        canonicalQueryString (strBytes r.rawQuery),
        hdrs,
        strBytes (String.intercalate ";" signed),
        strBytes payloadHash])

/-! Timestamps. `time.Parse("20060102T150405Z", s)` accepts exactly the
16-character `YYYYMMDDTHHMMSSZ` layout with in-range fields; the parsed
instant is converted to nanoseconds since the Unix epoch (UTC), using the
standard days-from-civil-date formula. -/

def isLeapYear (y : Nat) : Bool := (y % 4 == 0 && y % 100 != 0) || y % 400 == 0

def daysInMonth (y m : Nat) : Nat :=
  if m = 2 then (if isLeapYear y then 29 else 28)
  else if m = 4 ∨ m = 6 ∨ m = 9 ∨ m = 11 then 30
  else 31

/-- Days from 1970-01-01 for a civil date (valid Gregorian, year ≥ 1). -/
def daysFromCivil (y m d : Nat) : Int :=
  let y' : Int := if m ≤ 2 then (y : Int) - 1 else (y : Int)
  let era : Int := Int.ediv y' 400
  let yoe : Int := y' - era * 400
  let doy : Int := (153 * (if m > 2 then (m : Int) - 3 else (m : Int) + 9) + 2) / 5 + (d : Int) - 1
  let doe : Int := yoe * 365 + yoe / 4 - yoe / 100 + doy
  era * 146097 + doe - 719468

def digitVal (c : Char) : Option Nat :=
  if 48 ≤ c.toNat ∧ c.toNat ≤ 57 then some (c.toNat - 48) else none

/-- Parse an `X-Amz-Date` value to epoch nanoseconds; `none` on any
malformed or out-of-range field (the `bad X-Amz-Date` case). -/
def parseAmzDate (s : String) : Option Int :=
  match s.data with
  | [y1, y2, y3, y4, mo1, mo2, d1, d2, t, h1, h2, mi1, mi2, s1, s2, z] =>
      if t = 'T' ∧ z = 'Z' then
        match [y1, y2, y3, y4, mo1, mo2, d1, d2, h1, h2, mi1, mi2, s1, s2].mapM digitVal with
        | some [a, b, c, d, e, f, g, h, i, j, k, l, m, n] =>
            let year := a * 1000 + b * 100 + c * 10 + d
            let mon := e * 10 + f
            let day := g * 10 + h
            let hh := i * 10 + j
            let mm := k * 10 + l
            let ss := m * 10 + n
            if 1 ≤ mon ∧ mon ≤ 12 ∧ 1 ≤ day ∧ day ≤ daysInMonth year mon ∧
                hh ≤ 23 ∧ mm ≤ 59 ∧ ss ≤ 59 then
              some ((daysFromCivil year mon day * 86400 +
                ((hh * 3600 + mm * 60 + ss : Nat) : Int)) * 1000000000)
            else none
        | _ => none
      else none
  | _ => none

/-- `absDuration` (durations as nanosecond integers). -/
def absDuration (d : Int) : Int := if d < 0 then -d else d

/-- The middleware configuration after option defaulting: region, service,
clock skew (ns), the credential store (`SecretFor` over a static list),
and whether anonymous requests are rejected. -/
structure AuthConfig where
  region : String
  service : String
  clockSkew : Int
  credentials : List (String × String)
  requireAuth : Bool
deriving DecidableEq, Repr

def secretFor (creds : List (String × String)) (accessKey : String) : Option String :=
  match creds.find? (fun c => c.1 == accessKey) with
  | some c => some c.2
  | none => none

/-- Outcome of the middleware: pass to the next handler (with the access
key in context when authenticated), or a 401 with the given message. -/
inductive AuthResult where
  | next (accessKey : Option String)
  | reject (msg : String)
deriving DecidableEq, Repr

def strDropChars (s : String) (n : Nat) : String := ⟨s.data.drop n⟩

/-- The signature the server derives for a request: canonical request from
the parsed signed-header list and the payload hash, string-to-sign from
the date and credential scope, then the four-level HMAC key derivation.
`none` when the canonical request cannot be built. -/
def expectedSignature (r : Request) (parsed : AuthHeader) (secret amzDate : String) :
    Option String :=
  match buildCanonicalRequest r parsed.signedHeaders (ensurePayloadHash r) with
  | none => none
  | some canonicalReq =>
      let hashCR := sha256Hex canonicalReq
      let stringToSign := joinByteNL [strBytes "AWS4-HMAC-SHA256", strBytes amzDate,
        strBytes (String.intercalate "/" (parsed.credentialParts.drop 1)), strBytes hashCR]
      let kDate := hmacSHA256 (strBytes ("AWS4" ++ secret)) (strBytes (parsed.credentialParts.getD 1 ""))
      let kRegion := hmacSHA256 kDate (strBytes (parsed.credentialParts.getD 2 ""))
      let kService := hmacSHA256 kRegion (strBytes (parsed.credentialParts.getD 3 ""))
      let kSigning := hmacSHA256 kService (strBytes "aws4_request")
      some (hexOfBytes (hmacSHA256 kSigning stringToSign))

/-- The `AuthMiddleware` handler pipeline on one request, at wall-clock
instant `now` (epoch ns): exactly the chain of checks of auth.go lines
100-189, with its rejection messages. -/
def authCheck (c : AuthConfig) (now : Int) (r : Request) : AuthResult :=
  let authz := headerGet r "Authorization"
  if authz == "" then
    if c.requireAuth then .reject "missing Authorization header" else .next none
  else if !(hasPfx authz "AWS4-HMAC-SHA256 ") then .reject "invalid auth scheme"
  else
    match parseAuthHeader (strDropChars authz 17) with
    | none => .reject "malformed Authorization"
    | some parsed =>
        let accessKey := parsed.credentialParts.getD 0 ""
        if !(parsed.credentialParts.length == 5 &&
            parsed.credentialParts.getD 4 "" == "aws4_request") then
          .reject "invalid credential scope"
        else if !(parsed.credentialParts.getD 2 "" == c.region &&
            parsed.credentialParts.getD 3 "" == c.service) then
          .reject "invalid region/service"
        else
          match secretFor c.credentials accessKey with
          | none => .reject "unknown access key"
          | some secret =>
              let amzDate := headerGet r "X-Amz-Date"
              if amzDate == "" then .reject "missing X-Amz-Date"
              else
                match parseAmzDate amzDate with
                | none => .reject "bad X-Amz-Date"
                | some t =>
                    if absDuration (now - t) > c.clockSkew then .reject "request expired"
                    else if !(hasPfx amzDate (parsed.credentialParts.getD 1 "")) then
                      .reject "date scope mismatch"
                    else
                      match expectedSignature r parsed secret amzDate with
                      | none => .reject "canonical request error"
                      | some expectedSig =>
                          if !(expectedSig == parsed.signature) then
                            .reject "signature mismatch"
                          else .next (some accessKey)

/-! Concrete requests exercising the middleware. `sigEx` is stated as a
hex literal; that it is exactly the signature the pipeline derives for
`reqEx` is what the acceptance theorems below establish (the pipeline
recomputes it and compares). -/

def cfgEx : AuthConfig :=
  ⟨"us-east-1", "holydb", 300000000000, [("AKID", "sekrit")], true⟩

def reqBodyEx : List Nat := strBytes "hello"

def amzDateEx : String := "20251011T120000Z"

def ahEx : AuthHeader :=
  ⟨["AKID", "20251011", "us-east-1", "holydb", "aws4_request"],
   ["host", "x-amz-content-sha256", "x-amz-date"], ""⟩

def reqBaseEx : Request :=
  { method := "PUT", escapedPath := "/v1/storage/bkt/obj", rawQuery := "", host := "localhost",
    headers := [("X-Amz-Date", [amzDateEx]), ("X-Amz-Content-Sha256", [sha256Hex reqBodyEx])],
    body := some reqBodyEx }

def sigEx : String := "f2166ff00df5fa430287d2f746843e0781be8269b6ad530839df28bb8cb2fa8c"

/-- The parse of `reqEx`'s Authorization header. -/
def ahSigEx : AuthHeader := { ahEx with signature := sigEx }

def authzOf (sig : String) : String :=
  "AWS4-HMAC-SHA256 Credential=AKID/20251011/us-east-1/holydb/aws4_request, " ++
    "SignedHeaders=host;x-amz-content-sha256;x-amz-date, Signature=" ++ sig

def reqEx : Request :=
  { reqBaseEx with headers := ("Authorization", [authzOf sigEx]) :: reqBaseEx.headers }

def nowEx : Int := (parseAmzDate amzDateEx).getD 0

/-- `reqEx` with the body replaced after signing; the trusted
`X-Amz-Content-Sha256` header still carries the hash of the old body. -/
def reqAlteredEx : Request := { reqEx with body := some (strBytes "evil") }

/-! The same request without any `X-Amz-Content-Sha256` header: the server
hashes the body itself, so body alteration changes the canonical request. -/

def ahNoShaEx : AuthHeader :=
  ⟨["AKID", "20251011", "us-east-1", "holydb", "aws4_request"], ["host", "x-amz-date"], ""⟩

def reqNoShaBaseEx : Request :=
  { method := "PUT", escapedPath := "/v1/storage/bkt/obj", rawQuery := "", host := "localhost",
    headers := [("X-Amz-Date", [amzDateEx])], body := some reqBodyEx }

def sigNoShaEx : String := "74ba84eeee855df46973a0c9fae67a48b1950316bda727e31922b7da6abdac58"

def authzNoShaOf (sig : String) : String :=
  "AWS4-HMAC-SHA256 Credential=AKID/20251011/us-east-1/holydb/aws4_request, " ++
    "SignedHeaders=host;x-amz-date, Signature=" ++ sig

def reqNoShaEx : Request :=
  { reqNoShaBaseEx with headers := ("Authorization", [authzNoShaOf sigNoShaEx]) :: reqNoShaBaseEx.headers }

def reqNoShaAlteredEx : Request := { reqNoShaEx with body := some (strBytes "evil") }

/-- A signature string differing from `s` in its first character. -/
def flipFirstChar (s : String) : String :=
  match s.data with
  | [] => "x"
  | c :: rest => ⟨(if c = 'x' then 'y' else 'x') :: rest⟩

def reqFlippedEx : Request :=
  { reqBaseEx with
    headers := ("Authorization", [authzOf (flipFirstChar sigEx)]) :: reqBaseEx.headers }

/-- `reqEx` with the timestamp presented 10 minutes before `nowEx`,
exceeding the 5-minute skew. -/
def nowLateEx : Int := nowEx + 600000000000

/-! Congruence: the derived signature only looks at the request through
its method, path, query, host, body, and the signed (plus payload-hash)
header values — never through the Authorization header. -/

lemma canonicalHeadersB_congr (r r' : Request) (hh : r'.host = r.host) :
    ∀ (names : List String),
      (∀ nm ∈ names,
        headerValues r' (canonicalHeaderKey nm) = headerValues r (canonicalHeaderKey nm)) →
      canonicalHeadersB r' names = canonicalHeadersB r names := by
  intro names
  induction names with
  | nil => intro _; rfl
  | cons n rest ih =>
      intro h
      have hn := h n (List.mem_cons_self n rest)
      have hr : ∀ nm ∈ rest,
          headerValues r' (canonicalHeaderKey nm) = headerValues r (canonicalHeaderKey nm) :=
        fun nm hm => h nm (List.mem_cons_of_mem _ hm)
      simp only [canonicalHeadersB]
      rw [hn, ih hr, hh]

lemma ensurePayloadHash_congr (r r' : Request)
    (hcs : headerValues r' "X-Amz-Content-Sha256" = headerValues r "X-Amz-Content-Sha256")
    (hb : r'.body = r.body) :
    ensurePayloadHash r' = ensurePayloadHash r := by
  have hk : canonicalHeaderKey "X-Amz-Content-Sha256" = "X-Amz-Content-Sha256" := by decide
  simp only [ensurePayloadHash, headerGet, hk, hcs, hb]

lemma buildCanonicalRequest_congr (r r' : Request) (signed : List String) (ph : String)
    (hm : r'.method = r.method) (hp : r'.escapedPath = r.escapedPath)
    (hq : r'.rawQuery = r.rawQuery) (hh : r'.host = r.host)
    (hvs : ∀ nm ∈ sortStrs (signed.map strToLower),
      headerValues r' (canonicalHeaderKey nm) = headerValues r (canonicalHeaderKey nm)) :
    buildCanonicalRequest r' signed ph = buildCanonicalRequest r signed ph := by
  simp only [buildCanonicalRequest]
  rw [canonicalHeadersB_congr r r' hh _ hvs, hm, hp, hq]

lemma expectedSignature_congr (r r' : Request) (cp sh : List String)
    (sig sig' secret amzDate : String)
    (hm : r'.method = r.method) (hp : r'.escapedPath = r.escapedPath)
    (hq : r'.rawQuery = r.rawQuery) (hh : r'.host = r.host) (hb : r'.body = r.body)
    (hcs : headerValues r' "X-Amz-Content-Sha256" = headerValues r "X-Amz-Content-Sha256")
    (hvs : ∀ nm ∈ sortStrs (sh.map strToLower),
      headerValues r' (canonicalHeaderKey nm) = headerValues r (canonicalHeaderKey nm)) :
    expectedSignature r' ⟨cp, sh, sig'⟩ secret amzDate =
      expectedSignature r ⟨cp, sh, sig⟩ secret amzDate := by
  simp only [expectedSignature]
  rw [ensurePayloadHash_congr r r' hcs hb, buildCanonicalRequest_congr r r' sh _ hm hp hq hh hvs]

/-! Driving the middleware pipeline symbolically. `AuthPreOK` bundles the
checks up to (and excluding) the clock-skew comparison and the
signature comparison. -/

abbrev AuthPreOK (c : AuthConfig) (r : Request) (ak dp sig secret amzDate : String)
    (sh : List String) (t : Int) : Prop :=
  (headerGet r "Authorization" == "") = false ∧
  hasPfx (headerGet r "Authorization") "AWS4-HMAC-SHA256 " = true ∧
  parseAuthHeader (strDropChars (headerGet r "Authorization") 17) =
    some ⟨[ak, dp, c.region, c.service, "aws4_request"], sh, sig⟩ ∧
  secretFor c.credentials ak = some secret ∧
  headerGet r "X-Amz-Date" = amzDate ∧
  (amzDate == "") = false ∧
  parseAmzDate amzDate = some t

lemma getD5_0 (a b c d e f : String) : List.getD [a, b, c, d, e] 0 f = a := rfl

lemma getD5_1 (a b c d e f : String) : List.getD [a, b, c, d, e] 1 f = b := rfl

lemma getD5_2 (a b c d e f : String) : List.getD [a, b, c, d, e] 2 f = c := rfl

lemma getD5_3 (a b c d e f : String) : List.getD [a, b, c, d, e] 3 f = d := rfl

lemma getD5_4 (a b c d e f : String) : List.getD [a, b, c, d, e] 4 f = e := rfl

lemma len5_beq (a b c d e : String) : (([a, b, c, d, e] : List String).length == 5) = true := rfl

lemma auth_expired (c : AuthConfig) (now : Int) (r : Request)
    (ak dp sig secret amzDate : String) (sh : List String) (t : Int)
    (hpre : AuthPreOK c r ak dp sig secret amzDate sh t)
    (hskew : absDuration (now - t) > c.clockSkew) :
    authCheck c now r = .reject "request expired" := by
  obtain ⟨haz, hpfx, hparse, hkey, hdate, hdz, ht⟩ := hpre
  simp [authCheck, haz, hpfx, hparse, hkey, hdate, hdz, ht, hskew,
    getD5_0, getD5_1, getD5_2, getD5_3, getD5_4, len5_beq]

lemma auth_sig_outcome (c : AuthConfig) (now : Int) (r : Request)
    (ak dp sig secret amzDate es : String) (sh : List String) (t : Int)
    (hpre : AuthPreOK c r ak dp sig secret amzDate sh t)
    (hskew : ¬absDuration (now - t) > c.clockSkew)
    (hdp : hasPfx amzDate dp = true)
    (hsig : expectedSignature r ⟨[ak, dp, c.region, c.service, "aws4_request"], sh, sig⟩
      secret amzDate = some es) :
    authCheck c now r =
      if (es == sig) = true then .next (some ak) else .reject "signature mismatch" := by
  obtain ⟨haz, hpfx, hparse, hkey, hdate, hdz, ht⟩ := hpre
  by_cases hcmp : (es == sig) = true
  · simp [authCheck, haz, hpfx, hparse, hkey, hdate, hdz, ht, hskew, hdp, hsig, hcmp,
      getD5_0, getD5_1, getD5_2, getD5_3, getD5_4, len5_beq]
  · simp [authCheck, haz, hpfx, hparse, hkey, hdate, hdz, ht, hskew, hdp, hsig, hcmp,
      getD5_0, getD5_1, getD5_2, getD5_3, getD5_4, len5_beq]

lemma auth_flip (c : AuthConfig) (now : Int) (r r' : Request)
    (ak dp sig sig' secret amzDate : String) (sh : List String) (t : Int)
    (hpre : AuthPreOK c r ak dp sig secret amzDate sh t)
    (hpre' : AuthPreOK c r' ak dp sig' secret amzDate sh t)
    (hskew : ¬absDuration (now - t) > c.clockSkew)
    (hdp : hasPfx amzDate dp = true)
    (hm : r'.method = r.method) (hp : r'.escapedPath = r.escapedPath)
    (hq : r'.rawQuery = r.rawQuery) (hh : r'.host = r.host) (hb : r'.body = r.body)
    (hv : ∀ n, n ≠ "Authorization" → headerValues r' n = headerValues r n)
    (hsgn : ∀ nm ∈ sortStrs (sh.map strToLower), canonicalHeaderKey nm ≠ "Authorization")
    (hsig : expectedSignature r ⟨[ak, dp, c.region, c.service, "aws4_request"], sh, sig⟩
      secret amzDate = some sig)
    (hne : (sig == sig') = false) :
    authCheck c now r' = .reject "signature mismatch" := by
  have hcs : headerValues r' "X-Amz-Content-Sha256" = headerValues r "X-Amz-Content-Sha256" :=
    hv _ (by decide)
  have hvs : ∀ nm ∈ sortStrs (sh.map strToLower),
      headerValues r' (canonicalHeaderKey nm) = headerValues r (canonicalHeaderKey nm) :=
    fun nm hm2 => hv _ (hsgn nm hm2)
  have hsig' : expectedSignature r' ⟨[ak, dp, c.region, c.service, "aws4_request"], sh, sig'⟩
      secret amzDate = some sig :=
    (expectedSignature_congr r r' _ sh sig sig' secret amzDate hm hp hq hh hb hcs hvs).trans hsig
  rw [auth_sig_outcome c now r' ak dp sig' secret amzDate sig sh t hpre' hskew hdp hsig']
  simp [hne]

def sigAltEx : String := "765f082f15f0d68fbb752365f332451955874879a05c703126daad23baba47be"

/-! Concrete signature-chain evaluations (each one full SHA-256/HMAC
pipeline run, checked by kernel reduction). -/

lemma hsig_reqEx : expectedSignature reqEx
    ⟨["AKID", "20251011", "us-east-1", "holydb", "aws4_request"],
     ["host", "x-amz-content-sha256", "x-amz-date"], sigEx⟩ "sekrit" amzDateEx =
    some sigEx := by rfl

lemma hsig_reqAltered : expectedSignature reqAlteredEx
    ⟨["AKID", "20251011", "us-east-1", "holydb", "aws4_request"],
     ["host", "x-amz-content-sha256", "x-amz-date"], sigEx⟩ "sekrit" amzDateEx =
    some sigEx := by rfl

lemma hsig_noSha : expectedSignature reqNoShaEx
    ⟨["AKID", "20251011", "us-east-1", "holydb", "aws4_request"],
     ["host", "x-amz-date"], sigNoShaEx⟩ "sekrit" amzDateEx =
    some sigNoShaEx := by rfl

lemma hsig_noShaAlt : expectedSignature reqNoShaAlteredEx
    ⟨["AKID", "20251011", "us-east-1", "holydb", "aws4_request"],
     ["host", "x-amz-date"], sigNoShaEx⟩ "sekrit" amzDateEx =
    some sigAltEx := by rfl

lemma reqEx_admitted : authCheck cfgEx nowEx reqEx = .next (some "AKID") := by
  rw [auth_sig_outcome cfgEx nowEx reqEx "AKID" "20251011" sigEx "sekrit" amzDateEx sigEx
    ["host", "x-amz-content-sha256", "x-amz-date"] nowEx (by decide) (by decide) (by decide)
    hsig_reqEx]
  simp

lemma reqAlteredEx_admitted : authCheck cfgEx nowEx reqAlteredEx = .next (some "AKID") := by
  rw [auth_sig_outcome cfgEx nowEx reqAlteredEx "AKID" "20251011" sigEx "sekrit" amzDateEx sigEx
    ["host", "x-amz-content-sha256", "x-amz-date"] nowEx (by decide) (by decide) (by decide)
    hsig_reqAltered]
  simp

lemma reqNoShaEx_admitted : authCheck cfgEx nowEx reqNoShaEx = .next (some "AKID") := by
  rw [auth_sig_outcome cfgEx nowEx reqNoShaEx "AKID" "20251011" sigNoShaEx "sekrit" amzDateEx
    sigNoShaEx ["host", "x-amz-date"] nowEx (by decide) (by decide) (by decide) hsig_noSha]
  simp

lemma reqNoShaAlteredEx_rejected :
    authCheck cfgEx nowEx reqNoShaAlteredEx = .reject "signature mismatch" := by
  rw [auth_sig_outcome cfgEx nowEx reqNoShaAlteredEx "AKID" "20251011" sigNoShaEx "sekrit"
    amzDateEx sigAltEx ["host", "x-amz-date"] nowEx (by decide) (by decide) (by decide)
    hsig_noShaAlt]
  have h : (sigAltEx == sigNoShaEx) = false := by decide
  simp [h]

lemma hv_flip : ∀ n, n ≠ "Authorization" → headerValues reqFlippedEx n = headerValues reqEx n := by
  intro n hn
  have hb : (("Authorization" : String) == n) = false := beq_eq_false_iff_ne.mpr (Ne.symm hn)
  simp only [headerValues, reqFlippedEx, reqEx, reqBaseEx, List.find?, hb]

/-- C2, counterexample to the claim as written: `reqEx` is a correctly
signed request (the middleware admits it), `reqAlteredEx` is the same
request — same headers, same signature — with the body replaced after
signing, yet the middleware still admits it: `ensurePayloadHash` trusts
the supplied `X-Amz-Content-Sha256` header and never hashes the actual
body, so altering the signed body does not flip the outcome to rejected. -/
theorem c2_trusted_payload_hash_counterexample :
    authCheck cfgEx nowEx reqEx = .next (some "AKID") ∧
    authCheck cfgEx nowEx reqAlteredEx = .next (some "AKID") ∧
    reqAlteredEx.body ≠ reqEx.body ∧
    reqAlteredEx.method = reqEx.method ∧ reqAlteredEx.headers = reqEx.headers :=
  ⟨reqEx_admitted, reqAlteredEx_admitted, by decide, rfl, rfl⟩

/-- C2, amended: for every request passing the syntactic, credential,
and timestamp checks (`AuthPreOK`) within clock skew: (a) if the supplied
signature equals the one the pipeline derives, the request is admitted
with its access key; (b) any request identical outside the Authorization
header but presenting a different signature is rejected with `signature
mismatch`; (c) a timestamp whose skew from `now` exceeds the tolerance is
rejected with `request expired`; (d) when no `X-Amz-Content-Sha256`
header is supplied the body itself is hashed, so the correctly signed
`reqNoShaEx` is admitted while the body-altered `reqNoShaAlteredEx` is
rejected. (Body alteration under a supplied payload-hash header is NOT
rejected — see the counterexample.) -/
theorem c2_sigv4_acceptance_amended :
    (∀ (c : AuthConfig) (now : Int) (r : Request) (ak dp sig secret amzDate : String)
      (sh : List String) (t : Int),
      AuthPreOK c r ak dp sig secret amzDate sh t →
      ¬absDuration (now - t) > c.clockSkew →
      hasPfx amzDate dp = true →
      expectedSignature r ⟨[ak, dp, c.region, c.service, "aws4_request"], sh, sig⟩
        secret amzDate = some sig →
      authCheck c now r = .next (some ak)) ∧
    (∀ (c : AuthConfig) (now : Int) (r r' : Request)
      (ak dp sig sig' secret amzDate : String) (sh : List String) (t : Int),
      AuthPreOK c r ak dp sig secret amzDate sh t →
      AuthPreOK c r' ak dp sig' secret amzDate sh t →
      ¬absDuration (now - t) > c.clockSkew →
      hasPfx amzDate dp = true →
      r'.method = r.method → r'.escapedPath = r.escapedPath → r'.rawQuery = r.rawQuery →
      r'.host = r.host → r'.body = r.body →
      (∀ n, n ≠ "Authorization" → headerValues r' n = headerValues r n) →
      (∀ nm ∈ sortStrs (sh.map strToLower), canonicalHeaderKey nm ≠ "Authorization") →
      expectedSignature r ⟨[ak, dp, c.region, c.service, "aws4_request"], sh, sig⟩
        secret amzDate = some sig →
      (sig == sig') = false →
      authCheck c now r' = .reject "signature mismatch") ∧
    (∀ (c : AuthConfig) (now : Int) (r : Request) (ak dp sig secret amzDate : String)
      (sh : List String) (t : Int),
      AuthPreOK c r ak dp sig secret amzDate sh t →
      absDuration (now - t) > c.clockSkew →
      authCheck c now r = .reject "request expired") ∧
    (authCheck cfgEx nowEx reqNoShaEx = .next (some "AKID") ∧
      authCheck cfgEx nowEx reqNoShaAlteredEx = .reject "signature mismatch") := by
  refine ⟨?_, ?_, ?_, reqNoShaEx_admitted, reqNoShaAlteredEx_rejected⟩
  · intro c now r ak dp sig secret amzDate sh t hpre hskew hdp hsig
    rw [auth_sig_outcome c now r ak dp sig secret amzDate sig sh t hpre hskew hdp hsig]
    simp
  · intro c now r r' ak dp sig sig' secret amzDate sh t hpre hpre' hskew hdp hm hp hq hh hb
      hv hsgn hsig hne
    exact auth_flip c now r r' ak dp sig sig' secret amzDate sh t hpre hpre' hskew hdp
      hm hp hq hh hb hv hsgn hsig hne
  · intro c now r ak dp sig secret amzDate sh t hpre hskew
    exact auth_expired c now r ak dp sig secret amzDate sh t hpre hskew

/-- Witness for the amended C2 theorem at concrete requests: the correctly
signed `reqEx` is admitted, flipping the first byte of its signature gets
`signature mismatch`, and presenting it 10 minutes late gets
`request expired`. -/
theorem c2_sigv4_acceptance_amended_witness :
    authCheck cfgEx nowEx reqEx = .next (some "AKID") ∧
    authCheck cfgEx nowEx reqFlippedEx = .reject "signature mismatch" ∧
    authCheck cfgEx nowLateEx reqEx = .reject "request expired" := by
  refine ⟨?_, ?_, ?_⟩
  · exact c2_sigv4_acceptance_amended.1 cfgEx nowEx reqEx "AKID" "20251011" sigEx "sekrit"
      amzDateEx ["host", "x-amz-content-sha256", "x-amz-date"] nowEx
      (by decide) (by decide) (by decide) hsig_reqEx
  · exact c2_sigv4_acceptance_amended.2.1 cfgEx nowEx reqEx reqFlippedEx "AKID" "20251011"
      sigEx (flipFirstChar sigEx) "sekrit" amzDateEx
      ["host", "x-amz-content-sha256", "x-amz-date"] nowEx
      (by decide) (by decide) (by decide) (by decide) rfl rfl rfl rfl rfl
      hv_flip (by decide) hsig_reqEx (by decide)
  · exact c2_sigv4_acceptance_amended.2.2.1 cfgEx nowLateEx reqEx "AKID" "20251011" sigEx
      "sekrit" amzDateEx ["host", "x-amz-content-sha256", "x-amz-date"] nowEx
      (by decide) (by decide)
